import Mathlib

/-!
Verification of the SecureCipher browser client's secure-transport core
(`src/utils/SecureKeyManager.js`, `src/services/secureApi.js`).

JavaScript strings are modelled as lists of UTF-16 code units (`List Nat`),
JSON-compatible values as the inductive `Json` (numbers as exact integers:
the payloads the client signs carry integer amounts and unix timestamps),
and the WebCrypto primitives symbolically (an authenticated cipher decrypts
only under the exact key and IV it was produced with).
-/

/-- Code units of an ASCII Lean string literal, used to transcribe the string
constants of the source. -/
def cu (s : String) : List Nat := s.toList.map Char.toNat

/-- Decimal digit test on a code unit, 0x30..0x39. -/
def isDigit (c : Nat) : Bool := 48 ≤ c && c ≤ 57

/-- Lowercase hex digit for a nibble, as emitted by JSON escapes. -/
def hexDig (n : Nat) : Nat := if n < 10 then 48 + n else 87 + n

/-- Value of a (lowercase) hex digit code unit. -/
def hexVal (c : Nat) : Option Nat :=
  if 48 ≤ c && c ≤ 57 then some (c - 48)
  else if 97 ≤ c && c ≤ 102 then some (c - 87)
  else none

/-- Decimal digit code units of a natural number, most significant first. -/
def natDigits (n : Nat) : List Nat :=
  if n < 10 then [48 + n] else natDigits (n / 10) ++ [48 + n % 10]
termination_by n
decreasing_by exact Nat.div_lt_self (by omega) (by omega)

/-- Maximal-munch decimal scanner with accumulator; stops at the first
non-digit and returns the value read together with the rest. -/
def scanDigits : List Nat → Nat → Nat × List Nat
  | c :: r, acc => if isDigit c then scanDigits r (acc * 10 + (c - 48)) else (acc, c :: r)
  | [], acc => (acc, [])

/-- Decimal code units of an integer: JSON number output for exact integers. -/
def intDec (i : Int) : List Nat :=
  if i < 0 then 45 :: natDigits i.natAbs else natDigits i.natAbs

/-- Leading (high) surrogate code unit range. -/
def isHighSur (c : Nat) : Bool := 0xD800 ≤ c && c ≤ 0xDBFF

/-- Trailing (low) surrogate code unit range. -/
def isLowSur (c : Nat) : Bool := 0xDC00 ≤ c && c ≤ 0xDFFF

/-- The six-unit escape `\uXXXX` of one code unit, lowercase hex, as
`JSON.stringify` emits for control characters and lone surrogates. -/
def uEsc (c : Nat) : List Nat :=
  [92, 117, hexDig (c / 4096 % 16), hexDig (c / 256 % 16), hexDig (c / 16 % 16), hexDig (c % 16)]

/-- The string-body escaping of `JSON.stringify` (ECMA-404 / well-formed
stringify): quote and backslash escaped, the five short control escapes,
`\uXXXX` for other controls and for lone surrogates, everything else -
including properly paired surrogates - emitted raw. -/
def escU : List Nat → List Nat
  | [] => []
  | c :: rest =>
    if c = 34 then 92 :: 34 :: escU rest
    else if c = 92 then 92 :: 92 :: escU rest
    else if c = 8 then 92 :: 98 :: escU rest
    else if c = 9 then 92 :: 116 :: escU rest
    else if c = 10 then 92 :: 110 :: escU rest
    else if c = 12 then 92 :: 102 :: escU rest
    else if c = 13 then 92 :: 114 :: escU rest
    else if c < 32 then uEsc c ++ escU rest
    else if isHighSur c then
      match rest with
      | [] => uEsc c
      | d :: rest2 =>
        if isLowSur d then c :: d :: escU rest2 else uEsc c ++ escU (d :: rest2)
    else if isLowSur c then uEsc c ++ escU rest
    else c :: escU rest

/-- Scanner for a JSON string body after the opening quote: undoes `escU`
and stops at the closing quote. -/
def scanStr : List Nat → List Nat → Option (List Nat × List Nat)
  | acc, [] => none
  | acc, c :: rest =>
    if c = 34 then some (acc.reverse, rest)
    else if c = 92 then
      match rest with
      | [] => none
      | e :: rest2 =>
        if e = 34 then scanStr (34 :: acc) rest2
        else if e = 92 then scanStr (92 :: acc) rest2
        else if e = 98 then scanStr (8 :: acc) rest2
        else if e = 116 then scanStr (9 :: acc) rest2
        else if e = 110 then scanStr (10 :: acc) rest2
        else if e = 102 then scanStr (12 :: acc) rest2
        else if e = 114 then scanStr (13 :: acc) rest2
        else if e = 117 then
          match rest2 with
          | a :: b :: c2 :: d :: rest3 =>
            match hexVal a, hexVal b, hexVal c2, hexVal d with
            | some va, some vb, some vc, some vd =>
                scanStr ((((va * 16 + vb) * 16 + vc) * 16 + vd) :: acc) rest3
            | _, _, _, _ => none
          | _ => none
        else none
    else scanStr (c :: acc) rest

/-- A JSON-compatible value: the data model of the canonicalizer. Strings
are UTF-16 code-unit lists; object fields carry the object's own-key order. -/
inductive Json where
  | null : Json
  | bool (b : Bool) : Json
  | num (i : Int) : Json
  | str (s : List Nat) : Json
  | arr (xs : List Json) : Json
  | obj (fields : List (List Nat × Json)) : Json
deriving Repr

/-- First-match property lookup, `data[key]` on the modelled object
(the default branch is unreachable for keys taken from the object). -/
def lookupJ : List (List Nat × Json) → List Nat → Json
  | [], _ => .null
  | (k', v) :: t, k => if k' = k then v else lookupJ t k

/-- Size bound on property lookup, for the termination of the canonicalizer. -/
def lookupJ_size : ∀ (f : List (List Nat × Json)) (k : List Nat),
    sizeOf (lookupJ f k) ≤ sizeOf f := by
  intro f k
  induction f with
  | nil => simp [lookupJ]
  | cons hd t ih =>
      obtain ⟨k', v⟩ := hd
      simp only [lookupJ]
      split
      · simp; omega
      · simp; omega

/-- The ECMAScript abstract relational comparison on strings, as used by the
default `Array.prototype.sort` comparator: lexicographic on UTF-16 code
units, with a proper prefix ordered first. -/
def cuLt : List Nat → List Nat → Bool
  | [], [] => false
  | [], _ :: _ => true
  | _ :: _, [] => false
  | a :: s, b :: t => if a < b then true else if b < a then false else cuLt s t

/-- Non-strict version of `cuLt`; the order `Array.prototype.sort` realises. -/
def cuLe (a b : List Nat) : Bool := !(cuLt b a)

/-- Ordered insert for insertion sort. -/
def insertLe {α : Type} (le : α → α → Bool) (x : α) : List α → List α
  | [] => [x]
  | y :: t => if le x y then x :: y :: t else y :: insertLe le x t

/-- Insertion sort. `Array.prototype.sort` on an array of strings produces
the sorted rearrangement, which is unique because equal-comparing strings
are identical; any correct sort realises it. -/
def isortBy {α : Type} (le : α → α → Bool) : List α → List α
  | [] => []
  | x :: t => insertLe le x (isortBy le t)

/-- Field comparison by key, for sorting object fields. -/
def fieldLe (a b : List Nat × Json) : Bool := cuLe a.1 b.1

/-- `parts.join(',')`. -/
def joinComma : List (List Nat) → List Nat
  | [] => []
  | [x] => x
  | x :: y :: t => x ++ 44 :: joinComma (y :: t)

/-- Size is invariant under ordered insert, for termination arguments. -/
def insertLe_sizeOf : ∀ {α : Type} [SizeOf α] (le : α → α → Bool) (x : α)
    (l : List α), sizeOf (insertLe le x l) = 1 + sizeOf x + sizeOf l := by
  intro α _ le x l
  induction l with
  | nil => simp [insertLe]
  | cons y t ih =>
      simp only [insertLe]
      split
      · simp; try omega
      · simp [ih]; try omega

/-- Size is invariant under insertion sort, for termination arguments. -/
def isortBy_sizeOf : ∀ {α : Type} [SizeOf α] (le : α → α → Bool) (l : List α),
    sizeOf (isortBy le l) = sizeOf l := by
  intro α _ le l
  induction l with
  | nil => rfl
  | cons x t ih => simp [isortBy, insertLe_sizeOf, ih]; try omega

mutual
/-- `JSON.stringify` on the modelled values: the exact string the memoizing
canonicalizer uses as its cache key. Fields keep the object's own-key order
and keys are escaped; integers print in decimal. -/
def stringify : Json → List Nat
  | .null => [110, 117, 108, 108]
  | .bool true => [116, 114, 117, 101]
  | .bool false => [102, 97, 108, 115, 101]
  | .num i => intDec i
  | .str s => 34 :: escU s ++ [34]
  | .arr xs => 91 :: joinComma (stringifyParts xs) ++ [93]
  | .obj f => 123 :: joinComma (stringifyFieldParts f) ++ [125]
/-- Element strings of `JSON.stringify` of an array, in order. -/
def stringifyParts : List Json → List (List Nat)
  | [] => []
  | x :: t => stringify x :: stringifyParts t
/-- Member strings of `JSON.stringify` of an object, in own-key order. -/
def stringifyFieldParts : List (List Nat × Json) → List (List Nat)
  | [] => []
  | kv :: t => (34 :: escU kv.1 ++ 34 :: 58 :: stringify kv.2) :: stringifyFieldParts t
end

mutual
/-- The computation path of `SecureTransactionHandler._getCanonicalJson`
without its memo cache: primitives via `JSON.stringify`, arrays element-wise
joined with commas, objects with sorted keys emitted as raw
`"key":value` pairs (the source interpolates the key unescaped). This is
also the recursion of the uncached prototype variant of the function. -/
def canonPure : Json → List Nat
  | .null => [110, 117, 108, 108]
  | .bool true => [116, 114, 117, 101]
  | .bool false => [102, 97, 108, 115, 101]
  | .num i => intDec i
  | .str s => 34 :: escU s ++ [34]
  | .arr xs => 91 :: joinComma (canonParts xs) ++ [93]
  | .obj f => 123 :: joinComma (canonKeyParts (isortBy cuLe (f.map Prod.fst)) f) ++ [125]
termination_by j => (sizeOf j, 0)
decreasing_by
· apply Prod.Lex.left; simp; try omega
· apply Prod.Lex.left; simp; try omega
/-- Canonical strings of the array elements, in order. -/
def canonParts : List Json → List (List Nat)
  | [] => []
  | x :: t => canonPure x :: canonParts t
termination_by xs => (sizeOf xs, 0)
decreasing_by
· apply Prod.Lex.left; simp; try omega
· apply Prod.Lex.left; simp; try omega
/-- The `"key":value` member strings over the given (sorted) key list,
looking each key up in the object's fields. -/
def canonKeyParts : List (List Nat) → List (List Nat × Json) → List (List Nat)
  | [], _ => []
  | k :: t, f => (34 :: k ++ 34 :: 58 :: canonPure (lookupJ f k)) :: canonKeyParts t f
termination_by ks f => (sizeOf f, sizeOf ks)
decreasing_by
· have h := lookupJ_size f k
  rcases Nat.lt_or_ge (sizeOf (lookupJ f k)) (sizeOf f) with h1 | h1
  · exact Prod.Lex.left _ _ h1
  · have he : sizeOf (lookupJ f k) = sizeOf f := by omega
    rw [he]
    apply Prod.Lex.right; simp; try omega
· apply Prod.Lex.right; simp; try omega
end

mutual
/-- Canonicalization as the specification describes it, parameterised by the
key order: primitives by standard JSON scalar rules, arrays element-wise
preserving order, objects with fields sorted by key before serializing the
`"key":value` pairs, joined with no whitespace. -/
def canonSpecBy (le : List Nat × Json → List Nat × Json → Bool) : Json → List Nat
  | .null => [110, 117, 108, 108]
  | .bool true => [116, 114, 117, 101]
  | .bool false => [102, 97, 108, 115, 101]
  | .num i => intDec i
  | .str s => 34 :: escU s ++ [34]
  | .arr xs => 91 :: joinComma (specParts le xs) ++ [93]
  | .obj f => 123 :: joinComma (specFieldParts le (isortBy le f)) ++ [125]
termination_by j => sizeOf j
decreasing_by
· simp; try omega
· simp [isortBy_sizeOf]; try omega
/-- Spec-side canonical strings of array elements, in order. -/
def specParts (le : List Nat × Json → List Nat × Json → Bool) : List Json → List (List Nat)
  | [] => []
  | x :: t => canonSpecBy le x :: specParts le t
termination_by xs => sizeOf xs
decreasing_by
· simp; try omega
· simp; try omega
/-- Spec-side member strings of an already-sorted field list. -/
def specFieldParts (le : List Nat × Json → List Nat × Json → Bool) :
    List (List Nat × Json) → List (List Nat)
  | [] => []
  | kv :: t => (34 :: kv.1 ++ 34 :: 58 :: canonSpecBy le kv.2) :: specFieldParts le t
termination_by l => sizeOf l
decreasing_by
· obtain ⟨a, b⟩ := kv; simp; try omega
· simp; try omega
end

mutual
/-- Key-order normal form: recursively sort every object's fields by key.
Two JSON-compatible values are deep-equal up to key insertion order exactly
when their normal forms coincide. -/
def normalJson : Json → Json
  | .null => .null
  | .bool b => .bool b
  | .num i => .num i
  | .str s => .str s
  | .arr xs => .arr (normalElems xs)
  | .obj f => .obj (isortBy fieldLe (normalFields f))
/-- Normal forms of array elements. -/
def normalElems : List Json → List Json
  | [] => []
  | x :: t => normalJson x :: normalElems t
/-- Normal forms of field values, keys untouched, order preserved. -/
def normalFields : List (List Nat × Json) → List (List Nat × Json)
  | [] => []
  | kv :: t => (kv.1, normalJson kv.2) :: normalFields t
end

/-- Membership test on key lists. -/
def memKey (k : List Nat) : List (List Nat) → Bool
  | [] => false
  | k' :: t => k = k' || memKey k t

/-- Pairwise distinctness of a key list. -/
def keysDistinct : List (List Nat) → Bool
  | [] => true
  | k :: t => !(memKey k t) && keysDistinct t

mutual
/-- Every object in the value has pairwise-distinct keys — inherent for
values materialised as JavaScript objects, which cannot hold duplicates. -/
def nodupKeys : Json → Bool
  | .null => true
  | .bool _ => true
  | .num _ => true
  | .str _ => true
  | .arr xs => nodupKeysElems xs
  | .obj f => keysDistinct (f.map Prod.fst) && nodupKeysFields f
/-- `nodupKeys` over array elements. -/
def nodupKeysElems : List Json → Bool
  | [] => true
  | x :: t => nodupKeys x && nodupKeysElems t
/-- `nodupKeys` over field values. -/
def nodupKeysFields : List (List Nat × Json) → Bool
  | [] => true
  | kv :: t => nodupKeys kv.2 && nodupKeysFields t
end

/-- Code points of a UTF-16 code-unit sequence: surrogate pairs combine,
lone surrogates pass through. -/
def cpOfUnits : List Nat → List Nat
  | [] => []
  | c :: rest =>
    if isHighSur c then
      match rest with
      | [] => [c]
      | d :: rest2 =>
        if isLowSur d then (0x10000 + (c - 0xD800) * 0x400 + (d - 0xDC00)) :: cpOfUnits rest2
        else c :: cpOfUnits (d :: rest2)
    else c :: cpOfUnits rest

/-- UTF-8 bytes of one code point. -/
def utf8Enc (cp : Nat) : List Nat :=
  if cp < 0x80 then [cp]
  else if cp < 0x800 then [0xC0 + cp / 64, 0x80 + cp % 64]
  else if cp < 0x10000 then [0xE0 + cp / 4096, 0x80 + cp / 64 % 64, 0x80 + cp % 64]
  else [0xF0 + cp / 262144, 0x80 + cp / 4096 % 64, 0x80 + cp / 64 % 64, 0x80 + cp % 64]

/-- UTF-8 byte sequence of a string given by UTF-16 code units. -/
def utf8Key (k : List Nat) : List Nat :=
  (cpOfUnits k).foldr (fun cp acc => utf8Enc cp ++ acc) []

/-- Byte-wise lexicographic order on strings, the key order the
specification text names: compare the UTF-8 byte sequences. -/
def byteFieldLe (a b : List Nat × Json) : Bool := cuLe (utf8Key a.1) (utf8Key b.1)

/-- The memo cache of `_getCanonicalJson`: a `Map` from `JSON.stringify`
images to canonical strings, modelled as an insertion-ordered association
list. -/
abbrev Cache : Type := List (List Nat × List Nat)

/-- `Map.prototype.has`/`get` combined: first match by key equality. -/
def lookupC : Cache → List Nat → Option (List Nat)
  | [], _ => none
  | (k, v) :: t, s => if k = s then some v else lookupC t s

/-- `Map.prototype.set`: update in place if present, else append. -/
def setC : Cache → List Nat → List Nat → Cache
  | [], s, o => [(s, o)]
  | (k, v) :: t, s, o => if k = s then (s, o) :: t else (k, v) :: setC t s o

/-- `if (cache.size > 100) cache.clear()` before the insert. -/
def clearIfBig (c : Cache) : Cache :=
  if c.length > 100 then [] else c

mutual
/-- `SecureTransactionHandler._getCanonicalJson` with its memo cache: look
the `JSON.stringify` image of the value up and return the hit, else
recompute. Returns the canonical string with the updated cache. -/
def canonMemo : Cache → Json → List Nat × Cache
  | c, data =>
    match lookupC c (stringify data) with
    | some cached => (cached, c)
    | none => canonMemoCompute c data
termination_by _ j => (sizeOf j, 1)
decreasing_by
apply Prod.Lex.right; omega
/-- The miss path of `_getCanonicalJson`: recompute exactly as `canonPure`
does, recursive calls going through the shared cache; clear the cache
beyond 100 entries, then store the result under the stringify key. -/
def canonMemoCompute : Cache → Json → List Nat × Cache
  | c, .arr xs =>
    let pc := canonMemoParts c xs
    (91 :: joinComma pc.1 ++ [93],
     setC (clearIfBig pc.2) (stringify (.arr xs)) (91 :: joinComma pc.1 ++ [93]))
  | c, .obj f =>
    let pc := canonMemoKeyParts c (isortBy cuLe (f.map Prod.fst)) f
    (123 :: joinComma pc.1 ++ [125],
     setC (clearIfBig pc.2) (stringify (.obj f)) (123 :: joinComma pc.1 ++ [125]))
  | c, prim => (stringify prim, setC (clearIfBig c) (stringify prim) (stringify prim))
termination_by _ j => (sizeOf j, 0)
decreasing_by
· apply Prod.Lex.left; simp; try omega
· apply Prod.Lex.left; simp; try omega
/-- Memoized canonical strings of array elements, threading the cache left
to right as the source's `data.map(...)` does. -/
def canonMemoParts : Cache → List Json → List (List Nat) × Cache
  | c, [] => ([], c)
  | c, x :: t =>
    let sc := canonMemo c x
    let rc := canonMemoParts sc.2 t
    (sc.1 :: rc.1, rc.2)
termination_by _ xs => (sizeOf xs, 0)
decreasing_by
· apply Prod.Lex.left; simp; try omega
· apply Prod.Lex.left; simp; try omega
/-- Memoized `"key":value` member strings over the sorted key list,
threading the cache. -/
def canonMemoKeyParts : Cache → List (List Nat) → List (List Nat × Json) →
    List (List Nat) × Cache
  | c, [], _ => ([], c)
  | c, k :: t, f =>
    let sc := canonMemo c (lookupJ f k)
    let rc := canonMemoKeyParts sc.2 t f
    ((34 :: k ++ 34 :: 58 :: sc.1) :: rc.1, rc.2)
termination_by _ ks f => (sizeOf f, sizeOf ks)
decreasing_by
· have h := lookupJ_size f k
  rcases Nat.lt_or_ge (sizeOf (lookupJ f k)) (sizeOf f) with h1 | h1
  · exact Prod.Lex.left _ _ h1
  · have he : sizeOf (lookupJ f k) = sizeOf f := by omega
    rw [he]
    apply Prod.Lex.right
    have hk : 0 < sizeOf k := by
      cases k <;> simp <;> omega
    simp
    omega
· apply Prod.Lex.right; simp; try omega
end

/-- Cache states reachable from the module's fresh (empty) `Map` by any
sequence of canonicalization calls. -/
inductive ReachableCache : Cache → Prop where
  | init : ReachableCache ([] : List (List Nat × List Nat))
  | step (c : Cache) (v : Json) : ReachableCache c → ReachableCache (canonMemo c v).2

/-- Stop condition after a scanned number: end of input or a non-digit.
Every JSON delimiter (comma, closing bracket or brace) qualifies. -/
def numStop : List Nat → Bool
  | [] => true
  | c :: _ => !(isDigit c)

/-- Literal tail of `null` after its leading `n`. -/
def parseLitNull : List Nat → Option (Json × List Nat)
  | 117 :: 108 :: 108 :: r2 => some (.null, r2)
  | _ => none

/-- Literal tail of `true` after its leading `t`. -/
def parseLitTrue : List Nat → Option (Json × List Nat)
  | 114 :: 117 :: 101 :: r2 => some (.bool true, r2)
  | _ => none

/-- Literal tail of `false` after its leading `f`. -/
def parseLitFalse : List Nat → Option (Json × List Nat)
  | 97 :: 108 :: 115 :: 101 :: r2 => some (.bool false, r2)
  | _ => none

/-- String value after the opening quote. -/
def parseStrBody (r : List Nat) : Option (Json × List Nat) :=
  match scanStr [] r with
  | some (s, r2) => some (.str s, r2)
  | none => none

/-- Negative number after the minus sign. -/
def parseNegBody : List Nat → Option (Json × List Nat)
  | d :: r2 =>
    if isDigit d then
      let p := scanDigits (d :: r2) 0
      some (.num (-(p.1 : Int)), p.2)
    else none
  | [] => none

/-- Nonnegative number from its leading digit. -/
def parsePosBody (c : Nat) (r : List Nat) : Option (Json × List Nat) :=
  let p := scanDigits (c :: r) 0
  some (.num (p.1 : Int), p.2)

mutual
/-- A JSON parser over code units, sufficient to read back every
`stringify` image (no whitespace, integer numbers): used to show that
`JSON.stringify` is injective on the modelled values, the fact the memo
cache's keying relies on. Recursion is bounded by a fuel count. -/
def parseVal : Nat → List Nat → Option (Json × List Nat)
  | 0, _ => none
  | _ + 1, [] => none
  | fuel + 1, c :: r =>
    if c = 110 then parseLitNull r
    else if c = 116 then parseLitTrue r
    else if c = 102 then parseLitFalse r
    else if c = 34 then parseStrBody r
    else if c = 91 then parseArrBody fuel r
    else if c = 123 then parseObjBody fuel r
    else if c = 45 then parseNegBody r
    else if isDigit c then parsePosBody c r
    else none
termination_by fuel _ => (fuel, 0)
decreasing_by
all_goals apply Prod.Lex.left; omega
/-- Array after the opening bracket: empty, or one-or-more elements. -/
def parseArrBody : Nat → List Nat → Option (Json × List Nat)
  | _, [] => none
  | fuel, d :: r2 =>
    if d = 93 then some (.arr [], r2)
    else
      match parseElems fuel (d :: r2) with
      | some (xs, r3) => some (.arr xs, r3)
      | none => none
termination_by fuel _ => (fuel, 6)
decreasing_by
all_goals apply Prod.Lex.right; omega
/-- Object after the opening brace: empty, or one-or-more members. -/
def parseObjBody : Nat → List Nat → Option (Json × List Nat)
  | _, [] => none
  | fuel, d :: r2 =>
    if d = 125 then some (.obj [], r2)
    else
      match parseMembers fuel (d :: r2) with
      | some (ms, r3) => some (.obj ms, r3)
      | none => none
termination_by fuel _ => (fuel, 6)
decreasing_by
all_goals apply Prod.Lex.right; omega
/-- One or more comma-separated elements up to the closing bracket. -/
def parseElems : Nat → List Nat → Option (List Json × List Nat)
  | 0, _ => none
  | fuel + 1, cs =>
    match parseVal fuel cs with
    | some (v, r) => parseElemsTail fuel v r
    | none => none
termination_by fuel _ => (fuel, 2)
decreasing_by
all_goals apply Prod.Lex.left; omega
/-- After one element: a comma continues, a closing bracket ends. -/
def parseElemsTail : Nat → Json → List Nat → Option (List Json × List Nat)
  | fuel, v, 44 :: r2 =>
    (match parseElems fuel r2 with
     | some (vs, r3) => some (v :: vs, r3)
     | none => none)
  | _, v, 93 :: r2 => some ([v], r2)
  | _, _, _ => none
termination_by fuel _ _ => (fuel, 5)
decreasing_by
all_goals apply Prod.Lex.right; omega
/-- One or more comma-separated members up to the closing brace. -/
def parseMembers : Nat → List Nat → Option (List (List Nat × Json) × List Nat)
  | 0, _ => none
  | fuel + 1, 34 :: r =>
    (match scanStr [] r with
     | some (k, r1) => parseMemberColon fuel k r1
     | none => none)
  | _ + 1, _ => none
termination_by fuel _ => (fuel, 2)
decreasing_by
all_goals apply Prod.Lex.left; omega
/-- After a member key: a colon introduces the value. -/
def parseMemberColon : Nat → List Nat → List Nat →
    Option (List (List Nat × Json) × List Nat)
  | fuel, k, 58 :: r2 =>
    (match parseVal fuel r2 with
     | some (v, r3) => parseMemberTail fuel k v r3
     | none => none)
  | _, _, _ => none
termination_by fuel _ _ => (fuel, 6)
decreasing_by
all_goals apply Prod.Lex.right; omega
/-- After one member: a comma continues, a closing brace ends. -/
def parseMemberTail : Nat → List Nat → Json → List Nat →
    Option (List (List Nat × Json) × List Nat)
  | fuel, k, v, 44 :: r4 =>
    (match parseMembers fuel r4 with
     | some (ms, r5) => some ((k, v) :: ms, r5)
     | none => none)
  | _, k, v, 125 :: r4 => some ([(k, v)], r4)
  | _, _, _, _ => none
termination_by fuel _ _ _ => (fuel, 5)
decreasing_by
all_goals apply Prod.Lex.right; omega
end

/-- Adjacent-pairs order check: the list is sorted for the comparator. -/
def pairwiseLeB {α : Type} (le : α → α → Bool) : List α → Bool
  | [] => true
  | [_] => true
  | x :: y :: t => le x y && pairwiseLeB le (y :: t)

/-- Soundness invariant of the memo cache: every stored entry maps a
`JSON.stringify` image to the canonical string of the stringified value. -/
def CacheGood (c : Cache) : Prop :=
  ∀ (s out : List Nat), (s, out) ∈ c →
    ∀ v : Json, stringify v = s → canonPure v = out

/-! ### The session channel and orchestrator (`secureApi.js`, `SecureKeyManager.js`)

Key material is modelled symbolically: a keypair, a shared secret or a
derived key is determined exactly by the inputs that produced it, so two
such values are equal precisely when WebCrypto would produce
indistinguishable ones. -/

/-- The module-level ephemeral-key cache of `SecureTransactionHandler`:
`_ephemeralKeyCache` (a keypair or `null`) and `_cacheTimestamp`. -/
structure EphState where
  ephemeralKeyCache : Option Nat
  cacheTimestamp : Nat
deriving DecidableEq, Repr

/-- `_CACHE_DURATION`: five minutes in milliseconds. -/
def CACHE_DURATION : Nat := 300000

/-- `SecureTransactionHandler.generateEphemeralKeyPair`: returns the cached
keypair when one exists and is younger than `_CACHE_DURATION`, otherwise
generates a fresh one (`fresh`, drawn from the platform RNG) and caches it
with the current time. -/
def generateEphemeralKeyPair (st : EphState) (now fresh : Nat) : Nat × EphState :=
  match st.ephemeralKeyCache with
  | some kp =>
    if now - st.cacheTimestamp < CACHE_DURATION then (kp, st)
    else (fresh, ⟨some fresh, now⟩)
  | none => (fresh, ⟨some fresh, now⟩)

/-- `SecureTransactionHandler.deriveSharedSecret`: the ECDH bits are
determined by the ephemeral private key and the server public key. -/
def deriveSharedSecret (ephPriv serverPub : Nat) : Nat × Nat := (ephPriv, serverPub)

/-- A derived session key: the key-derivation call with all its parameters,
as handed to `window.crypto.subtle.deriveKey`. -/
structure SessionKey where
  sharedSecret : Nat × Nat
  kdfName : List Nat
  hash : List Nat
  salt : List Nat
  info : List Nat
  keyAlgo : List Nat
  keyLength : Nat
deriving DecidableEq, Repr

/-- `SecureTransactionHandler.deriveSessionKey`: HKDF over the shared
secret with hash SHA-384, empty salt and the fixed application info string,
yielding a 256-bit AES-GCM key. -/
def deriveSessionKey (sharedSecret : Nat × Nat) : SessionKey :=
  { sharedSecret := sharedSecret
    kdfName := cu "HKDF"
    hash := cu "SHA-384"
    salt := []
    info := cu "secure-cipher-session-key"
    keyAlgo := cu "AES-GCM"
    keyLength := 256 }

/-- The key-agreement slice of one `makeSecureRequest` invocation (steps 3
of the source): ephemeral keypair via the caching generator, then shared
secret and session key against the server public key. Returns the
ephemeral public key, the session key, and the updated module state. -/
def requestKeyAgreement (st : EphState) (now fresh serverPub : Nat) :
    (Nat × SessionKey) × EphState :=
  let g := generateEphemeralKeyPair st now fresh
  ((g.1, deriveSessionKey (deriveSharedSecret g.1 serverPub)), g.2)

/-- Two sequential `makeSecureRequest` invocations against the same server
public key, at times `t1 ≤ t2`, with distinct fresh randomness available to
each: the pair of (ephemeral public key, session key) the two requests use. -/
def twoSequentialRequests (t1 t2 fresh1 fresh2 serverPub : Nat) :
    (Nat × SessionKey) × (Nat × SessionKey) :=
  let r1 := requestKeyAgreement ⟨none, 0⟩ t1 fresh1 serverPub
  let r2 := requestKeyAgreement r1.2 t2 fresh2 serverPub
  (r1.1, r2.1)

/-- The logical plaintext envelope `secure_payload` that `makeSecureRequest`
assembles (step 5) and then encrypts: field names and order as in the
source. `auth_token` is the JWT read from `localStorage` (a string or
`null`), `timestamp` is `Math.floor(Date.now() / 1000)`, `nonce` is
`crypto.randomUUID()`. -/
def secure_payload (target : List Nat) (url_params transaction_data : Json)
    (client_signature client_public_key : List Nat) (auth_token : Json)
    (nowMs : Nat) (nonce : List Nat) : Json :=
  .obj [(cu "target", .str target),
        (cu "url_params", url_params),
        (cu "transaction_data", transaction_data),
        (cu "client_signature", .str client_signature),
        (cu "client_public_key", .str client_public_key),
        (cu "auth_token", auth_token),
        (cu "timestamp", .num (nowMs / 1000)),
        (cu "nonce", .str nonce)]

/-- The key list of an object value. -/
def objKeys : Json → List (List Nat)
  | .obj f => f.map Prod.fst
  | _ => []

/-- The envelope fields the specification's claim names (no `auth_token`). -/
def claimedEnvelopeKeys : List (List Nat) :=
  [cu "target", cu "url_params", cu "transaction_data", cu "client_signature",
   cu "client_public_key", cu "timestamp", cu "nonce"]

/-- A thrown JavaScript error, carrying its message. Identity of the
`JsError` value models identity of the thrown object, so a re-thrown error
keeps its classification. -/
structure JsError where
  msg : List Nat
deriving DecidableEq, Repr

/-- Substring test at the head. -/
def leadsWith : List Nat → List Nat → Bool
  | [], _ => true
  | _ :: _, [] => false
  | p :: ps, c :: cs => p = c && leadsWith ps cs

/-- `String.prototype.includes`: contiguous substring test. -/
def includesCU (s pat : List Nat) : Bool :=
  match s with
  | [] => leadsWith pat []
  | _ :: t => leadsWith pat s || includesCU t pat

/-- The `'[401'` marker `secureRequestWithRefresh` greps error messages for. -/
def marker401 : List Nat := [91, 52, 48, 49]

/-- One run of `secureRequestWithRefresh`: `attempt n` is the outcome of
the `n`-th `makeSecureRequest` call (0-based), `refreshOk` the outcome of
`refreshToken()` (which catches its own failures and returns `false`), and
`isRefreshing` the module flag at entry (`false` for a fresh module).
Returns the outcome delivered to the caller and how many times
`makeSecureRequest` ran. -/
def secureRequestWithRefresh (attempt : Nat → Except JsError Json)
    (refreshOk : Bool) (isRefreshing : Bool) : Except JsError Json × Nat :=
  match attempt 0 with
  | .ok r => (.ok r, 1)
  | .error e =>
    if includesCU e.msg marker401 && !isRefreshing then
      if refreshOk then (attempt 1, 2)
      else (.error e, 1)
    else (.error e, 1)

/-- A PBKDF2-derived wrapping key is determined by the PIN and the salt
(`SecureKeyManager.deriveEncryptionKey`: PBKDF2, 100000 iterations,
SHA-256, AES-GCM 256). -/
structure WrapKey where
  pin : List Nat
  salt : Nat
deriving DecidableEq, Repr

/-- `SecureKeyManager.deriveEncryptionKey` in the symbolic model. -/
def deriveEncryptionKey (pin : List Nat) (salt : Nat) : WrapKey := ⟨pin, salt⟩

/-- An AES-GCM ciphertext remembers the key, IV and plaintext that produced
it; authenticated decryption recovers the plaintext only under that exact
key and IV. -/
structure GcmCiphertext where
  key : WrapKey
  iv : Nat
  plain : Nat
deriving DecidableEq, Repr

/-- `crypto.subtle.encrypt({name: 'AES-GCM', iv}, key, data)`. -/
def subtleEncryptGCM (key : WrapKey) (iv : Nat) (plain : Nat) : GcmCiphertext :=
  ⟨key, iv, plain⟩

/-- `crypto.subtle.decrypt({name: 'AES-GCM', iv}, key, data)`: `some` on
authentication success, `none` for the `OperationError` a tag mismatch
raises. -/
def subtleDecryptGCM (key : WrapKey) (iv : Nat) (ct : GcmCiphertext) : Option Nat :=
  if ct.key = key ∧ ct.iv = iv then some ct.plain else none

/-- The stored record `{encrypted, salt, iv}` that `encryptPrivateKey`
returns and IndexedDB persists. -/
structure EncKeyRecord where
  encrypted : GcmCiphertext
  salt : Nat
  iv : Nat
deriving DecidableEq, Repr

/-- `SecureKeyManager.encryptPrivateKey`: fresh salt and IV from the
platform RNG (passed in), wrapping key from the PIN, AES-GCM over the
PKCS8 export of the private key. -/
def encryptPrivateKey (privateKey : Nat) (pin : List Nat) (salt iv : Nat) : EncKeyRecord :=
  ⟨subtleEncryptGCM (deriveEncryptionKey pin salt) iv privateKey, salt, iv⟩

/-- The message of the error `decryptPrivateKey` raises when authenticated
decryption fails (`error.name === 'OperationError'`). -/
def invalidPinMsg : List Nat := cu "Invalid PIN. Please try again."

/-- `SecureKeyManager.decryptPrivateKey`: re-derive the wrapping key from
the supplied PIN and the stored salt, decrypt, re-import. A failed
authenticated decryption is caught and rethrown as the invalid-PIN error. -/
def decryptPrivateKey (encrypted : GcmCiphertext) (pin : List Nat) (salt iv : Nat) :
    Except JsError Nat :=
  match subtleDecryptGCM (deriveEncryptionKey pin salt) iv encrypted with
  | some pkcs8 => .ok pkcs8
  | none => .error ⟨invalidPinMsg⟩

/-- The in-memory cache of `secureApi.js` for the server public key: the
module-level `serverPublicKey`/`serverPublicKeyPem` pair, `none` until the
first successful fetch. -/
abbrev ServerKeyState : Type := Option (Nat × List Nat)

/-- Importing the fetched PEM yields a key determined by the PEM text. -/
def importServerPublicKey (pem : List Nat) : Nat × List Nat := (pem.length, pem)

/-- `getServerPublicKey`: return the cached key if present - without
consulting the clock or the network - else fetch (the outcome of which is
`fetched`), import and cache. The fetch failure path throws and leaves the
cache empty. `now` is the wall-clock time of the call, which the source
never reads. -/
def getServerPublicKey (st : ServerKeyState) (fetched : Except JsError (List Nat))
    (now : Nat) : Except JsError ((Nat × List Nat) × ServerKeyState) :=
  match st with
  | some kp => .ok (kp, some kp)
  | none =>
    match fetched with
    | .ok pem => .ok (importServerPublicKey pem, some (importServerPublicKey pem))
    | .error _ => .error ⟨cu "Failed to fetch server public key."⟩

/-- The IndexedDB object store `keys` of database `secure-cipher-bank`,
keyed by record identifier. -/
abbrev KeyStore : Type := List (List Nat × EncKeyRecord)

/-- The fixed record identifier `KEY_ID`. -/
def KEY_ID : List Nat := cu "user-private-key"

/-- `store.put(value, key)`. -/
def putStore : KeyStore → List Nat → EncKeyRecord → KeyStore
  | [], k, r => [(k, r)]
  | (k', r') :: t, k, r => if k' = k then (k, r) :: t else (k', r') :: putStore t k r

/-- `store.get(key)`: resolves with the stored value, or with `undefined`
(`none`) when nothing is stored - the request succeeds either way. -/
def getStore : KeyStore → List Nat → Option EncKeyRecord
  | [], _ => none
  | (k', r') :: t, k => if k' = k then some r' else getStore t k

/-- `SecureKeyManager.storeEncryptedKey`: put the record under `KEY_ID`. -/
def storeEncryptedKey (db : KeyStore) (record : EncKeyRecord) : KeyStore :=
  putStore db KEY_ID record

/-- `SecureKeyManager.getEncryptedKey`: read the record under `KEY_ID`. -/
def getEncryptedKey (db : KeyStore) : Option EncKeyRecord :=
  getStore db KEY_ID

/-! ### Claims about the session channel, orchestrator, key custody and storage -/

/-- C1: the claim that two sequential `makeSecureRequest` invocations
against the same server public key use two different ephemeral public keys
and two different session keys fails on the code: within the five-minute
`_ephemeralKeyCache` window the second request reuses the first request's
ephemeral keypair - and hence derives the identical session key - even
though fresh randomness (here 101 vs 202) is available. Requests at
`Date.now()` 0ms and 1000ms against server key 7. -/
theorem ephemeralKey_reused_within_cache_window :
    (twoSequentialRequests 0 1000 101 202 7).1 = (twoSequentialRequests 0 1000 101 202 7).2
    ∧ (101 : Nat) ≠ 202 := by
  exact ⟨rfl, by decide⟩

/-- C4 counterexample: the envelope `makeSecureRequest` encrypts does not
consist of exactly the seven claimed fields - it also carries `auth_token`.

Concrete request: target `transfer`, empty params and payload, signature
`sig`, public key `pem`, a `null` stored token, `Date.now()` of
1700000000000, nonce `uuid`. -/
theorem secure_payload_not_claimed_fields :
    objKeys (secure_payload (cu "transfer") (.obj []) (.obj []) (cu "sig") (cu "pem")
        .null 1700000000000 (cu "uuid")) ≠ claimedEnvelopeKeys := by
  intro h
  have hlen := congrArg List.length h
  simp [objKeys, secure_payload, claimedEnvelopeKeys] at hlen

/-- C4 amended: for every outbound secure request, the logical plaintext
envelope contains exactly the fields `target`, `url_params`,
`transaction_data`, `client_signature`, `client_public_key`, `auth_token`
(the stored JWT, a string or null), `timestamp` (unix seconds, an integer)
and `nonce`, in this order, and no other fields; the timestamp field holds
`Math.floor(Date.now() / 1000)`. -/
theorem secure_payload_exact_fields (target : List Nat) (url_params transaction_data : Json)
    (client_signature client_public_key : List Nat) (auth_token : Json)
    (nowMs : Nat) (nonce : List Nat) :
    objKeys (secure_payload target url_params transaction_data client_signature
        client_public_key auth_token nowMs nonce)
      = [cu "target", cu "url_params", cu "transaction_data", cu "client_signature",
         cu "client_public_key", cu "auth_token", cu "timestamp", cu "nonce"]
    ∧ lookupJ [(cu "timestamp",
        .num ((nowMs : Nat) / 1000))] (cu "timestamp") = .num (nowMs / 1000) := by
  constructor
  · rfl
  · simp [lookupJ]

/-- C5: `secureRequestWithRefresh` makes at most one automatic retry; a
second `makeSecureRequest` call happens only when the first threw an error
whose message carries the `[401` marker and the token refresh succeeded, in
which case the retry's outcome is delivered as-is; in every other error
case the caller receives the very error value the first call threw -
unchanged, hence with its classification intact. -/
theorem secureRequestWithRefresh_retry_discipline
    (attempt : Nat → Except JsError Json) (refreshOk : Bool) :
    (secureRequestWithRefresh attempt refreshOk false).2 ≤ 2
    ∧ ((secureRequestWithRefresh attempt refreshOk false).2 = 2 →
        ∃ e, attempt 0 = .error e ∧ includesCU e.msg marker401 = true ∧ refreshOk = true
          ∧ (secureRequestWithRefresh attempt refreshOk false).1 = attempt 1)
    ∧ (∀ e, attempt 0 = .error e →
        ¬(includesCU e.msg marker401 = true ∧ refreshOk = true) →
        (secureRequestWithRefresh attempt refreshOk false).1 = .error e) := by
  rcases h0 : attempt 0 with e | r
  · by_cases h1 : includesCU e.msg marker401 = true
    · cases refreshOk with
      | true =>
        have hr : secureRequestWithRefresh attempt true false = (attempt 1, 2) := by
          simp [secureRequestWithRefresh, h0, h1]
        rw [hr]
        refine ⟨by simp, fun _ => ⟨e, rfl, h1, rfl, rfl⟩, fun e' he' hc => ?_⟩
        injection he' with hee
        subst hee
        exact absurd ⟨h1, rfl⟩ hc
      | false =>
        have hr : secureRequestWithRefresh attempt false false = (.error e, 1) := by
          simp [secureRequestWithRefresh, h0, h1]
        rw [hr]
        refine ⟨by simp, fun hn => absurd hn (by simp), fun e' he' hc => ?_⟩
        injection he' with hee
        subst hee
        rfl
    · have h1' : includesCU e.msg marker401 = false := by
        cases hi : includesCU e.msg marker401
        · rfl
        · exact absurd hi h1
      have hr : secureRequestWithRefresh attempt refreshOk false = (.error e, 1) := by
        simp [secureRequestWithRefresh, h0, h1']
      rw [hr]
      refine ⟨by simp, fun hn => absurd hn (by simp), fun e' he' hc => ?_⟩
      injection he' with hee
      subst hee
      rfl
  · have hr : secureRequestWithRefresh attempt refreshOk false = (.ok r, 1) := by
      simp [secureRequestWithRefresh, h0]
    rw [hr]
    refine ⟨by simp, fun hn => absurd hn (by simp), fun e' he' hc => ?_⟩
    simp at he'

/-- C5 witness: a non-401 failure is delivered to the caller as the
original error value, and the run made exactly one request. -/
theorem secureRequestWithRefresh_retry_discipline_witness :
    (secureRequestWithRefresh (fun _ => .error ⟨[88]⟩) false false).1 = .error ⟨[88]⟩ :=
  (secureRequestWithRefresh_retry_discipline (fun _ => .error ⟨[88]⟩) false).2.2
    ⟨[88]⟩ rfl (by decide)

/-- C6: decrypting a record that was encrypted under one PIN with any
different PIN fails with the invalid-PIN error and never yields a key: the
wrapping key re-derived from the wrong PIN differs, so the AES-GCM
authentication check fails, and `decryptPrivateKey` maps that
`OperationError` to its invalid-PIN error. -/
theorem decryptPrivateKey_wrong_pin_fails (privateKey : Nat) (pin1 pin2 : List Nat)
    (salt iv : Nat) (hne : pin1 ≠ pin2) :
    decryptPrivateKey (encryptPrivateKey privateKey pin1 salt iv).encrypted pin2
        (encryptPrivateKey privateKey pin1 salt iv).salt
        (encryptPrivateKey privateKey pin1 salt iv).iv
      = .error ⟨invalidPinMsg⟩ := by
  simp only [encryptPrivateKey, decryptPrivateKey, subtleEncryptGCM, subtleDecryptGCM,
    deriveEncryptionKey]
  rw [if_neg]
  intro hc
  exact hne (congrArg WrapKey.pin hc.1)

/-- C6 witness: PIN `123456` to encrypt, PIN `654321` to decrypt. -/
theorem decryptPrivateKey_wrong_pin_fails_witness :
    decryptPrivateKey (encryptPrivateKey 11 (cu "123456") 3 4).encrypted (cu "654321")
        (encryptPrivateKey 11 (cu "123456") 3 4).salt
        (encryptPrivateKey 11 (cu "123456") 3 4).iv
      = .error ⟨invalidPinMsg⟩ :=
  decryptPrivateKey_wrong_pin_fails 11 (cu "123456") (cu "654321") 3 4 (by decide)

/-- C7 counterexample to the bounded-duration cache: once
`getServerPublicKey` has cached a key (reachable by one successful call at
time 0), a call one billion milliseconds later - with a rotated key
available from the endpoint - still returns the original cached import and
never refetches, so no expiry bound exists. -/
theorem serverKey_cache_never_expires :
    getServerPublicKey none (.ok (cu "v1-pem")) 0
      = .ok (importServerPublicKey (cu "v1-pem"), some (importServerPublicKey (cu "v1-pem")))
    ∧ getServerPublicKey (some (importServerPublicKey (cu "v1-pem"))) (.ok (cu "v2-pem")) 1000000000
      = .ok (importServerPublicKey (cu "v1-pem"), some (importServerPublicKey (cu "v1-pem")))
    ∧ importServerPublicKey (cu "v2-pem") ≠ importServerPublicKey (cu "v1-pem") := by
  refine ⟨rfl, rfl, ?_⟩
  decide

/-- C7 amended: the server-public-key cache holds the imported key for the
lifetime of the module - a cache hit consults neither the clock nor the
network, so the key is never invalidated or refetched; a failed fetch fails
the whole operation with the fetch error and leaves the cache empty, never
falling back to a stale or default key; a successful fetch caches exactly
the imported key. -/
theorem getServerPublicKey_cache_behaviour :
    (∀ (kp : Nat × List Nat) (fetched : Except JsError (List Nat)) (now : Nat),
        getServerPublicKey (some kp) fetched now = .ok (kp, some kp))
    ∧ (∀ (e : JsError) (now : Nat),
        getServerPublicKey none (.error e) now
          = .error ⟨cu "Failed to fetch server public key."⟩)
    ∧ (∀ (pem : List Nat) (now : Nat),
        getServerPublicKey none (.ok pem) now
          = .ok (importServerPublicKey pem, some (importServerPublicKey pem))) :=
  ⟨fun _ _ _ => rfl, fun _ _ => rfl, fun _ _ => rfl⟩

/-- C8: for every ECDH shared secret, `deriveSessionKey` derives the
session key by HKDF with hash SHA-384, empty salt and the fixed
application info string `secure-cipher-session-key`, producing a 256-bit
AES-GCM key. -/
theorem deriveSessionKey_parameters (ss : Nat × Nat) :
    (deriveSessionKey ss).kdfName = cu "HKDF"
    ∧ (deriveSessionKey ss).hash = cu "SHA-384"
    ∧ (deriveSessionKey ss).salt = []
    ∧ (deriveSessionKey ss).info = cu "secure-cipher-session-key"
    ∧ (deriveSessionKey ss).keyAlgo = cu "AES-GCM"
    ∧ (deriveSessionKey ss).keyLength = 256 :=
  ⟨rfl, rfl, rfl, rfl, rfl, rfl⟩

/-- C9: persisting an encrypted-key record and loading immediately returns
a record equal to the one stored, from any prior store state; loading from
an empty store returns the explicit absent result (the get request
resolves with `undefined`), not an error. -/
theorem encryptedKey_store_load_roundtrip :
    (∀ (db : KeyStore) (record : EncKeyRecord),
        getEncryptedKey (storeEncryptedKey db record) = some record)
    ∧ getEncryptedKey ([] : List (List Nat × EncKeyRecord)) = none := by
  constructor
  · intro db record
    unfold getEncryptedKey storeEncryptedKey
    induction db with
    | nil => simp [putStore, getStore]
    | cons hd t ih =>
        obtain ⟨k', r'⟩ := hd
        by_cases hk : k' = KEY_ID
        · subst hk
          simp [putStore, getStore]
        · simp [putStore, getStore, hk, ih]
  · rfl

/-! ### `JSON.stringify` is injective: reading every image back

The memo cache of `_getCanonicalJson` is keyed on `JSON.stringify(data)`;
its transparency rests on distinct values never sharing a key. The parser
above recovers every `stringify` image, which gives injectivity. -/

/-- Every code unit `natDigits` emits is a decimal digit. -/
theorem natDigits_digits (n : Nat) : ∀ c ∈ natDigits n, isDigit c = true := by
  induction n using natDigits.induct with
  | case1 n h =>
      rw [natDigits, if_pos h]
      intro c hc
      rw [List.mem_singleton] at hc
      subst hc
      simp [isDigit]
      omega
  | case2 n h ih =>
      rw [natDigits, if_neg h]
      intro c hc
      rw [List.mem_append] at hc
      rcases hc with hc | hc
      · exact ih c hc
      · rw [List.mem_singleton] at hc
        subst hc
        simp [isDigit]
        omega

/-- A digit run is nonempty and begins with a digit. -/
theorem natDigits_cons (n : Nat) :
    ∃ c t, natDigits n = c :: t ∧ isDigit c = true := by
  rcases h : natDigits n with _ | ⟨c, t⟩
  · exfalso
    rw [natDigits] at h
    split at h <;> simp at h
  · exact ⟨c, t, rfl, natDigits_digits n c (h ▸ List.mem_cons_self ..)⟩

/-- The scanner does not move on a stopped input. -/
theorem scanDigits_stop (r : List Nat) (acc : Nat) (h : numStop r = true) :
    scanDigits r acc = (acc, r) := by
  cases r with
  | nil => rfl
  | cons c t =>
      simp only [numStop, Bool.not_eq_true'] at h
      simp [scanDigits, h]

/-- Scanning a rendered digit run folds its value into the accumulator. -/
theorem scanDigits_natDigits (n : Nat) : ∀ (acc : Nat) (r : List Nat),
    scanDigits (natDigits n ++ r) acc
      = scanDigits r (acc * 10 ^ (natDigits n).length + n) := by
  induction n using natDigits.induct with
  | case1 n h =>
      intro acc r
      rw [natDigits, if_pos h]
      simp only [List.cons_append, List.nil_append, List.length_singleton]
      rw [scanDigits, if_pos (show isDigit (48 + n) = true by simp [isDigit]; omega)]
      congr 1
      omega
  | case2 n h ih =>
      intro acc r
      rw [natDigits, if_neg h]
      rw [List.append_assoc, List.cons_append, List.nil_append, ih]
      have hd : isDigit (48 + n % 10) = true := by simp [isDigit]; omega
      rw [scanDigits, if_pos hd]
      congr 1
      simp only [List.length_append, List.length_singleton]
      rw [pow_succ]
      have h1 : 48 + n % 10 - 48 = n % 10 := by omega
      rw [h1]
      have h2 : n / 10 * 10 + n % 10 = n := by omega
      calc (acc * 10 ^ (natDigits (n / 10)).length + n / 10) * 10 + n % 10
          = acc * (10 ^ (natDigits (n / 10)).length * 10) + (n / 10 * 10 + n % 10) := by ring
        _ = acc * (10 ^ (natDigits (n / 10)).length * 10) + n := by rw [h2]

/-- Scanning a digit run against a stopped remainder returns its value. -/
theorem scanDigits_natDigits_stop (n : Nat) (r : List Nat) (h : numStop r = true) :
    scanDigits (natDigits n ++ r) 0 = (n, r) := by
  rw [scanDigits_natDigits, scanDigits_stop _ _ h]
  simp

/-- The lowercase hex digit carries its nibble. -/
theorem hexVal_hexDig (d : Nat) (h : d < 16) : hexVal (hexDig d) = some d := by
  interval_cases d <;> decide

/-- Unfolding: escaping the empty body. -/
theorem escU_nil : escU [] = [] := by rw [escU.eq_def]

/-- Unfolding: the scanner at a closing quote. -/
theorem scanStr_quote (acc r : List Nat) : scanStr acc (34 :: r) = some (acc.reverse, r) := by
  rw [scanStr.eq_def]
  simp

/-- Unfolding: the scanner consumes an unescaped unit. -/
theorem scanStr_raw (acc : List Nat) (c : Nat) (rest : List Nat)
    (h1 : ¬c = 34) (h2 : ¬c = 92) :
    scanStr acc (c :: rest) = scanStr (c :: acc) rest := by
  rw [scanStr.eq_def]
  simp [h1, h2]

/-- Scanning one `\uXXXX` escape recovers exactly the escaped unit. -/
theorem scanStr_uEsc (c : Nat) (h : c < 65536) (acc r : List Nat) :
    scanStr acc (uEsc c ++ r) = scanStr (c :: acc) r := by
  have h1 : c / 4096 % 16 < 16 := Nat.mod_lt _ (by omega)
  have h2 : c / 256 % 16 < 16 := Nat.mod_lt _ (by omega)
  have h3 : c / 16 % 16 < 16 := Nat.mod_lt _ (by omega)
  have h4 : c % 16 < 16 := Nat.mod_lt _ (by omega)
  simp only [uEsc, List.cons_append, List.nil_append]
  rw [scanStr.eq_def]
  simp [hexVal_hexDig _ h1, hexVal_hexDig _ h2, hexVal_hexDig _ h3, hexVal_hexDig _ h4]
  rw [show ((c / 4096 % 16 * 16 + c / 256 % 16) * 16 + c / 16 % 16) * 16 + c % 16 = c from by
    omega]

/-- Scanning an escaped string body stops exactly at the closing quote and
returns the original code units: `scanStr` inverts `escU`. -/
theorem scanStr_escU : ∀ (s acc r : List Nat),
    scanStr acc (escU s ++ 34 :: r) = some (acc.reverse ++ s, r) := by
  intro s
  induction s using escU.induct with
  | case1 =>
      intro acc r
      simp only [escU_nil, List.nil_append, scanStr_quote, List.append_nil]
  | case2 rest2 ih =>
      intro acc r
      have he : escU (34 :: rest2) = 92 :: 34 :: escU rest2 := by
        rw [escU.eq_def]; simp
      rw [he]
      simp only [List.cons_append]
      rw [scanStr.eq_def]
      simp [ih]
  | case3 rest2 _ ih =>
      intro acc r
      have he : escU (92 :: rest2) = 92 :: 92 :: escU rest2 := by
        rw [escU.eq_def]; simp
      rw [he]
      simp only [List.cons_append]
      rw [scanStr.eq_def]
      simp [ih]
  | case4 rest2 _ _ ih =>
      intro acc r
      have he : escU (8 :: rest2) = 92 :: 98 :: escU rest2 := by
        rw [escU.eq_def]; simp
      rw [he]
      simp only [List.cons_append]
      rw [scanStr.eq_def]
      simp [ih]
  | case5 rest2 _ _ _ ih =>
      intro acc r
      have he : escU (9 :: rest2) = 92 :: 116 :: escU rest2 := by
        rw [escU.eq_def]; simp
      rw [he]
      simp only [List.cons_append]
      rw [scanStr.eq_def]
      simp [ih]
  | case6 rest2 _ _ _ _ ih =>
      intro acc r
      have he : escU (10 :: rest2) = 92 :: 110 :: escU rest2 := by
        rw [escU.eq_def]; simp
      rw [he]
      simp only [List.cons_append]
      rw [scanStr.eq_def]
      simp [ih]
  | case7 rest2 _ _ _ _ _ ih =>
      intro acc r
      have he : escU (12 :: rest2) = 92 :: 102 :: escU rest2 := by
        rw [escU.eq_def]; simp
      rw [he]
      simp only [List.cons_append]
      rw [scanStr.eq_def]
      simp [ih]
  | case8 rest2 _ _ _ _ _ _ ih =>
      intro acc r
      have he : escU (13 :: rest2) = 92 :: 114 :: escU rest2 := by
        rw [escU.eq_def]; simp
      rw [he]
      simp only [List.cons_append]
      rw [scanStr.eq_def]
      simp [ih]
  | case9 d rest2 hq hb h8 h9 h10 h12 h13 hlt ih =>
      intro acc r
      have he : escU (d :: rest2) = uEsc d ++ escU rest2 := by
        rw [escU.eq_def]
        simp [hq, hb, h8, h9, h10, h12, h13, hlt]
      rw [he, List.append_assoc, scanStr_uEsc d (by omega), ih]
      simp
  | case10 d hq hb h8 h9 h10 h12 h13 hge hhi =>
      intro acc r
      have hd : d < 65536 := by simp [isHighSur] at hhi; omega
      have he : escU [d] = uEsc d := by
        rw [escU.eq_def]
        simp [hq, hb, h8, h9, h10, h12, h13, hge, hhi]
      rw [he, scanStr_uEsc d hd, scanStr_quote]
      simp
  | case11 d hq hb h8 h9 h10 h12 h13 hge hhi d1 rest2 hlo ih =>
      intro acc r
      have hd1q : ¬d1 = 34 := by simp [isLowSur] at hlo; omega
      have hd1b : ¬d1 = 92 := by simp [isLowSur] at hlo; omega
      have he : escU (d :: d1 :: rest2) = d :: d1 :: escU rest2 := by
        rw [escU.eq_def]
        simp [hq, hb, h8, h9, h10, h12, h13, hge, hhi, hlo]
      rw [he]
      simp only [List.cons_append]
      rw [scanStr_raw _ _ _ hq hb, scanStr_raw _ _ _ hd1q hd1b, ih]
      simp
  | case12 d hq hb h8 h9 h10 h12 h13 hge hhi d1 rest2 hnlo ih =>
      intro acc r
      have hd : d < 65536 := by simp [isHighSur] at hhi; omega
      have he : escU (d :: d1 :: rest2) = uEsc d ++ escU (d1 :: rest2) := by
        rw [escU.eq_def]
        simp [hq, hb, h8, h9, h10, h12, h13, hge, hhi, hnlo]
      rw [he, List.append_assoc, scanStr_uEsc d hd, ih]
      simp
  | case13 d rest2 hq hb h8 h9 h10 h12 h13 hge hnhi hlo ih =>
      intro acc r
      have hd : d < 65536 := by simp [isLowSur] at hlo; omega
      have he : escU (d :: rest2) = uEsc d ++ escU rest2 := by
        rw [escU.eq_def]
        simp [hq, hb, h8, h9, h10, h12, h13, hge, hnhi, hlo]
      rw [he, List.append_assoc, scanStr_uEsc d hd, ih]
      simp
  | case14 d rest2 hq hb h8 h9 h10 h12 h13 hge hnhi hnlo ih =>
      intro acc r
      have he : escU (d :: rest2) = d :: escU rest2 := by
        rw [escU.eq_def]
        simp [hq, hb, h8, h9, h10, h12, h13, hge, hnhi, hnlo]
      rw [he]
      simp only [List.cons_append]
      rw [scanStr_raw _ _ _ hq hb, ih]
      simp

/-- Unfolding lemma for `stringify` at `null`. -/
theorem stringify_null : stringify Json.null = [110, 117, 108, 108] := by
  rw [stringify.eq_def]

/-- Unfolding lemma for `stringify` at a boolean. -/
theorem stringify_bool (b : Bool) :
    stringify (Json.bool b) = if b then [116, 114, 117, 101] else [102, 97, 108, 115, 101] := by
  cases b <;> rw [stringify.eq_def] <;> rfl

/-- Unfolding lemma for `stringify` at a number. -/
theorem stringify_num (i : Int) : stringify (Json.num i) = intDec i := by
  rw [stringify.eq_def]

/-- Unfolding lemma for `stringify` at a string. -/
theorem stringify_str (s : List Nat) : stringify (Json.str s) = 34 :: escU s ++ [34] := by
  rw [stringify.eq_def]

/-- Unfolding lemma for `stringify` at an array. -/
theorem stringify_arr (xs : List Json) :
    stringify (Json.arr xs) = 91 :: joinComma (stringifyParts xs) ++ [93] := by
  rw [stringify.eq_def]

/-- Unfolding lemma for `stringify` at an object. -/
theorem stringify_obj (f : List (List Nat × Json)) :
    stringify (Json.obj f) = 123 :: joinComma (stringifyFieldParts f) ++ [125] := by
  rw [stringify.eq_def]

/-- Unfolding lemma for the element strings of an array. -/
theorem stringifyParts_nil : stringifyParts [] = [] := by
  rw [stringifyParts.eq_def]

/-- Unfolding lemma for the element strings of an array, cons case. -/
theorem stringifyParts_cons (x : Json) (t : List Json) :
    stringifyParts (x :: t) = stringify x :: stringifyParts t := by
  rw [stringifyParts.eq_def]

/-- Unfolding lemma for the member strings of an object. -/
theorem stringifyFieldParts_nil : stringifyFieldParts [] = [] := by
  rw [stringifyFieldParts.eq_def]

/-- Unfolding lemma for the member strings of an object, cons case. -/
theorem stringifyFieldParts_cons (kv : List Nat × Json) (t : List (List Nat × Json)) :
    stringifyFieldParts (kv :: t)
      = (34 :: escU kv.1 ++ 34 :: 58 :: stringify kv.2) :: stringifyFieldParts t := by
  rw [stringifyFieldParts.eq_def]

/-- Every rendered value begins with a unit that closes nothing: never a
comma, closing bracket or closing brace. -/
theorem stringify_head (j : Json) :
    ∃ c t, stringify j = c :: t ∧ ¬c = 93 ∧ ¬c = 125 ∧ ¬c = 44 := by
  cases j with
  | null => exact ⟨110, _, stringify_null, by omega, by omega, by omega⟩
  | bool b =>
      cases b
      · exact ⟨102, _, by rw [stringify_bool]; rfl, by omega, by omega, by omega⟩
      · exact ⟨116, _, by rw [stringify_bool]; rfl, by omega, by omega, by omega⟩
  | str s => exact ⟨34, _, stringify_str s, by omega, by omega, by omega⟩
  | arr xs => exact ⟨91, _, stringify_arr xs, by omega, by omega, by omega⟩
  | obj f => exact ⟨123, _, stringify_obj f, by omega, by omega, by omega⟩
  | num i =>
      rw [stringify_num, intDec]
      by_cases hn : i < 0
      · rw [if_pos hn]
        exact ⟨45, _, rfl, by omega, by omega, by omega⟩
      · rw [if_neg hn]
        obtain ⟨c, t, hct, hd⟩ := natDigits_cons i.natAbs
        simp only [isDigit, Bool.and_eq_true, decide_eq_true_eq] at hd
        exact ⟨c, t, hct, by omega, by omega, by omega⟩


/-- Parser unfolding: `null`. -/
theorem parseVal_null (fuel : Nat) (r : List Nat) :
    parseVal (fuel + 1) (110 :: 117 :: 108 :: 108 :: r) = some (.null, r) := by
  rw [parseVal.eq_def]
  simp [parseLitNull]

/-- Parser unfolding: `true`. -/
theorem parseVal_true (fuel : Nat) (r : List Nat) :
    parseVal (fuel + 1) (116 :: 114 :: 117 :: 101 :: r) = some (.bool true, r) := by
  rw [parseVal.eq_def]
  simp [parseLitTrue]

/-- Parser unfolding: `false`. -/
theorem parseVal_false (fuel : Nat) (r : List Nat) :
    parseVal (fuel + 1) (102 :: 97 :: 108 :: 115 :: 101 :: r) = some (.bool false, r) := by
  rw [parseVal.eq_def]
  simp [parseLitFalse]

/-- Parser unfolding: a rendered string. -/
theorem parseVal_str (fuel : Nat) (s r : List Nat) :
    parseVal (fuel + 1) (34 :: (escU s ++ 34 :: r)) = some (.str s, r) := by
  rw [parseVal.eq_def]
  simp [parseStrBody, scanStr_escU]

/-- Parser unfolding: the empty array. -/
theorem parseVal_arr_nil (fuel : Nat) (r : List Nat) :
    parseVal (fuel + 1) (91 :: 93 :: r) = some (.arr [], r) := by
  rw [parseVal.eq_def]
  simp [parseArrBody]

/-- Parser unfolding: a nonempty array defers to `parseElems`. -/
theorem parseVal_arr_cons (fuel : Nat) (d : Nat) (r2 : List Nat) (hd : ¬d = 93)
    (xs : List Json) (r3 : List Nat) (hp : parseElems fuel (d :: r2) = some (xs, r3)) :
    parseVal (fuel + 1) (91 :: d :: r2) = some (.arr xs, r3) := by
  rw [parseVal.eq_def]
  simp only [Nat.reduceEqDiff]
  rw [parseArrBody.eq_def]
  simp [hd, hp]

/-- Parser unfolding: the empty object. -/
theorem parseVal_obj_nil (fuel : Nat) (r : List Nat) :
    parseVal (fuel + 1) (123 :: 125 :: r) = some (.obj [], r) := by
  rw [parseVal.eq_def]
  simp [parseObjBody]

/-- Parser unfolding: a nonempty object defers to `parseMembers`. -/
theorem parseVal_obj_cons (fuel : Nat) (d : Nat) (r2 : List Nat) (hd : ¬d = 125)
    (ms : List (List Nat × Json)) (r3 : List Nat)
    (hp : parseMembers fuel (d :: r2) = some (ms, r3)) :
    parseVal (fuel + 1) (123 :: d :: r2) = some (.obj ms, r3) := by
  rw [parseVal.eq_def]
  simp only [Nat.reduceEqDiff]
  rw [parseObjBody.eq_def]
  simp [hd, hp]

/-- Parser unfolding: a digit head reads a number via the scanner. -/
theorem parseVal_digit (fuel : Nat) (c : Nat) (r : List Nat) (hd : isDigit c = true)
    (n : Nat) (r3 : List Nat) (hs : scanDigits (c :: r) 0 = (n, r3)) :
    parseVal (fuel + 1) (c :: r) = some (.num (n : Int), r3) := by
  have hb : 48 ≤ c ∧ c ≤ 57 := by
    simp only [isDigit, Bool.and_eq_true, decide_eq_true_eq] at hd
    exact hd
  rw [parseVal.eq_def]
  dsimp only
  rw [if_neg (by omega), if_neg (by omega), if_neg (by omega), if_neg (by omega),
    if_neg (by omega), if_neg (by omega), if_neg (by omega), if_pos hd]
  simp [parsePosBody, hs]

/-- Parser unfolding: a minus sign then a digit reads a negative number. -/
theorem parseVal_neg (fuel : Nat) (d : Nat) (r2 : List Nat) (hd : isDigit d = true)
    (n : Nat) (r3 : List Nat) (hs : scanDigits (d :: r2) 0 = (n, r3)) :
    parseVal (fuel + 1) (45 :: d :: r2) = some (.num (-(n : Int)), r3) := by
  rw [parseVal.eq_def]
  simp only [Nat.reduceEqDiff]
  simp [parseNegBody, hd, hs]

/-- Parser unfolding: one parsed element, then its continuation. -/
theorem parseElems_step (f : Nat) (cs : List Nat) (v : Json) (r : List Nat)
    (h : parseVal f cs = some (v, r)) :
    parseElems (f + 1) cs = parseElemsTail f v r := by
  rw [parseElems.eq_def]
  simp [h]

/-- Parser unfolding: a closing bracket ends the element list. -/
theorem parseElemsTail_close (f : Nat) (v : Json) (r2 : List Nat) :
    parseElemsTail f v (93 :: r2) = some ([v], r2) := by
  rw [parseElemsTail.eq_def]

/-- Parser unfolding: a comma continues the element list. -/
theorem parseElemsTail_comma (f : Nat) (v : Json) (r2 : List Nat) (vs : List Json)
    (r3 : List Nat) (h : parseElems f r2 = some (vs, r3)) :
    parseElemsTail f v (44 :: r2) = some (v :: vs, r3) := by
  rw [parseElemsTail.eq_def]
  simp [h]

/-- Parser unfolding: a member list opens with a scanned key. -/
theorem parseMembers_step (f : Nat) (r k r1 : List Nat) (h : scanStr [] r = some (k, r1)) :
    parseMembers (f + 1) (34 :: r) = parseMemberColon f k r1 := by
  rw [parseMembers.eq_def]
  simp [h]

/-- Parser unfolding: the colon introduces the member value. -/
theorem parseMemberColon_step (f : Nat) (k r2 : List Nat) (v : Json) (r3 : List Nat)
    (h : parseVal f r2 = some (v, r3)) :
    parseMemberColon f k (58 :: r2) = parseMemberTail f k v r3 := by
  rw [parseMemberColon.eq_def]
  simp [h]

/-- Parser unfolding: a closing brace ends the member list. -/
theorem parseMemberTail_close (f : Nat) (k : List Nat) (v : Json) (r4 : List Nat) :
    parseMemberTail f k v (125 :: r4) = some ([(k, v)], r4) := by
  rw [parseMemberTail.eq_def]

/-- Parser unfolding: a comma continues the member list. -/
theorem parseMemberTail_comma (f : Nat) (k : List Nat) (v : Json) (r4 : List Nat)
    (ms : List (List Nat × Json)) (r5 : List Nat) (h : parseMembers f r4 = some (ms, r5)) :
    parseMemberTail f k v (44 :: r4) = some ((k, v) :: ms, r5) := by
  rw [parseMemberTail.eq_def]
  simp [h]

/-- A unit outside the digit range stops the number scanner. -/
theorem numStop_of_head (c : Nat) (z : List Nat) (h : ¬(48 ≤ c ∧ c ≤ 57)) :
    numStop (c :: z) = true := by
  simp [numStop, isDigit]
  omega

/-- Renderings are never empty. -/
theorem stringify_len_pos (j : Json) : 0 < (stringify j).length := by
  obtain ⟨c, t, hct, _⟩ := stringify_head j
  simp [hct]

/-- The joined element strings of a nonempty array start like their first
element: never with a closing bracket, closing brace or comma. -/
theorem joinParts_head (x : Json) (xs : List Json) :
    ∃ c t, joinComma (stringifyParts (x :: xs)) = c :: t
      ∧ ¬c = 93 ∧ ¬c = 125 ∧ ¬c = 44 := by
  obtain ⟨c, t, hct, h1, h2, h3⟩ := stringify_head x
  rw [stringifyParts_cons]
  cases hxs : stringifyParts xs with
  | nil => exact ⟨c, t, by simp [joinComma, hct], h1, h2, h3⟩
  | cons p ps =>
      refine ⟨c, t ++ 44 :: joinComma (p :: ps), ?_, h1, h2, h3⟩
      simp [joinComma, hct]

/-- The joined member strings of a nonempty object start with a quote. -/
theorem joinFieldParts_head (kv : List Nat × Json) (ms : List (List Nat × Json)) :
    ∃ t, joinComma (stringifyFieldParts (kv :: ms)) = 34 :: t := by
  rw [stringifyFieldParts_cons]
  cases hms : stringifyFieldParts ms with
  | nil => exact ⟨escU kv.1 ++ 34 :: 58 :: stringify kv.2, by simp [joinComma]⟩
  | cons p ps =>
      exact ⟨(escU kv.1 ++ 34 :: 58 :: stringify kv.2) ++ 44 :: joinComma (p :: ps),
        by simp [joinComma]⟩

mutual
/-- Round trip: the parser reads every rendered value back, for any fuel
beyond the rendering's length and any remainder that cannot extend a
number. -/
theorem rt_val : ∀ (j : Json) (fuel : Nat) (rest : List Nat),
    (stringify j).length < fuel → numStop rest = true →
    parseVal fuel (stringify j ++ rest) = some (j, rest)
  | .null, fuel, rest, hf, _ => by
      rw [stringify_null] at hf ⊢
      cases fuel with
      | zero => exact absurd hf (Nat.not_lt_zero _)
      | succ f =>
          simp only [List.cons_append, List.nil_append]
          exact parseVal_null f rest
  | .bool true, fuel, rest, hf, _ => by
      rw [stringify_bool] at hf ⊢
      simp only [if_true] at hf ⊢
      cases fuel with
      | zero => exact absurd hf (Nat.not_lt_zero _)
      | succ f =>
          simp only [List.cons_append, List.nil_append]
          exact parseVal_true f rest
  | .bool false, fuel, rest, hf, _ => by
      rw [stringify_bool] at hf ⊢
      simp only [Bool.false_eq_true, if_false] at hf ⊢
      cases fuel with
      | zero => exact absurd hf (Nat.not_lt_zero _)
      | succ f =>
          simp only [List.cons_append, List.nil_append]
          exact parseVal_false f rest
  | .str s, fuel, rest, hf, _ => by
      rw [stringify_str] at hf ⊢
      cases fuel with
      | zero => exact absurd hf (Nat.not_lt_zero _)
      | succ f =>
          have hshape : (34 :: escU s ++ [34]) ++ rest = 34 :: (escU s ++ 34 :: rest) := by
            simp
          rw [hshape]
          exact parseVal_str f s rest
  | .num i, fuel, rest, hf, hr => by
      rw [stringify_num] at hf ⊢
      cases fuel with
      | zero => exact absurd hf (Nat.not_lt_zero _)
      | succ f =>
          rw [intDec] at hf ⊢
          by_cases hi : i < 0
          · rw [if_pos hi] at hf ⊢
            obtain ⟨d, t, hdt, hd⟩ := natDigits_cons i.natAbs
            have hscan : scanDigits (d :: (t ++ rest)) 0 = (i.natAbs, rest) := by
              have hs := scanDigits_natDigits_stop i.natAbs rest hr
              rw [hdt] at hs
              simpa using hs
            have hshape : (45 :: natDigits i.natAbs) ++ rest = 45 :: d :: (t ++ rest) := by
              rw [hdt]
              simp
            rw [hshape, parseVal_neg f d (t ++ rest) hd i.natAbs rest hscan]
            have hii : -((i.natAbs : Nat) : Int) = i := by omega
            rw [hii]
          · rw [if_neg hi] at hf ⊢
            obtain ⟨d, t, hdt, hd⟩ := natDigits_cons i.natAbs
            have hscan : scanDigits (d :: (t ++ rest)) 0 = (i.natAbs, rest) := by
              have hs := scanDigits_natDigits_stop i.natAbs rest hr
              rw [hdt] at hs
              simpa using hs
            have hshape : natDigits i.natAbs ++ rest = d :: (t ++ rest) := by
              rw [hdt]
              simp
            rw [hshape, parseVal_digit f d (t ++ rest) hd i.natAbs rest hscan]
            have hii : ((i.natAbs : Nat) : Int) = i := by omega
            rw [hii]
  | .arr [], fuel, rest, hf, _ => by
      rw [stringify_arr, stringifyParts_nil] at hf ⊢
      simp only [joinComma] at hf ⊢
      cases fuel with
      | zero => exact absurd hf (Nat.not_lt_zero _)
      | succ f =>
          simp only [List.cons_append, List.nil_append]
          exact parseVal_arr_nil f rest
  | .arr (x :: xs), fuel, rest, hf, _ => by
      rw [stringify_arr] at hf ⊢
      cases fuel with
      | zero => exact absurd hf (Nat.not_lt_zero _)
      | succ f =>
          obtain ⟨c0, t0, hj, h93, _, _⟩ := joinParts_head x xs
          have hflen : (joinComma (stringifyParts (x :: xs))).length + 2 ≤ f := by
            simp only [List.length_cons, List.length_append, List.length_singleton] at hf
            omega
          have he := rt_elems x xs f rest (by omega)
          have hshape : (91 :: joinComma (stringifyParts (x :: xs)) ++ [93]) ++ rest
              = 91 :: c0 :: (t0 ++ 93 :: rest) := by
            rw [hj]
            simp
          rw [hshape]
          refine parseVal_arr_cons f c0 (t0 ++ 93 :: rest) h93 (x :: xs) rest ?_
          rw [show c0 :: (t0 ++ 93 :: rest)
              = joinComma (stringifyParts (x :: xs)) ++ 93 :: rest from by rw [hj]; simp]
          exact he
  | .obj [], fuel, rest, hf, _ => by
      rw [stringify_obj, stringifyFieldParts_nil] at hf ⊢
      simp only [joinComma] at hf ⊢
      cases fuel with
      | zero => exact absurd hf (Nat.not_lt_zero _)
      | succ f =>
          simp only [List.cons_append, List.nil_append]
          exact parseVal_obj_nil f rest
  | .obj (kv :: ms), fuel, rest, hf, _ => by
      rw [stringify_obj] at hf ⊢
      cases fuel with
      | zero => exact absurd hf (Nat.not_lt_zero _)
      | succ f =>
          obtain ⟨t0, hj⟩ := joinFieldParts_head kv ms
          have hflen : (joinComma (stringifyFieldParts (kv :: ms))).length + 2 ≤ f := by
            simp only [List.length_cons, List.length_append, List.length_singleton] at hf
            omega
          have he := rt_members kv ms f rest (by omega)
          have hshape : (123 :: joinComma (stringifyFieldParts (kv :: ms)) ++ [125]) ++ rest
              = 123 :: 34 :: (t0 ++ 125 :: rest) := by
            rw [hj]
            simp
          rw [hshape]
          refine parseVal_obj_cons f 34 (t0 ++ 125 :: rest) (by omega) (kv :: ms) rest ?_
          rw [show (34 : Nat) :: (t0 ++ 125 :: rest)
              = joinComma (stringifyFieldParts (kv :: ms)) ++ 125 :: rest from by rw [hj]; simp]
          exact he
termination_by j _ _ _ _ => sizeOf j
decreasing_by
all_goals simp
all_goals omega
/-- Round trip for one-or-more array elements up to the closing bracket. -/
theorem rt_elems : ∀ (x : Json) (xs : List Json) (fuel : Nat) (rest : List Nat),
    (joinComma (stringifyParts (x :: xs))).length + 1 < fuel →
    parseElems fuel (joinComma (stringifyParts (x :: xs)) ++ 93 :: rest) = some (x :: xs, rest)
  | x, [], fuel, rest, hf => by
      cases fuel with
      | zero => exact absurd hf (Nat.not_lt_zero _)
      | succ f =>
          have hjoin : joinComma (stringifyParts [x]) = stringify x := by
            rw [stringifyParts_cons, stringifyParts_nil]
            simp [joinComma]
          rw [hjoin] at hf ⊢
          have hv := rt_val x f (93 :: rest) (by omega)
            (numStop_of_head 93 rest (by omega))
          rw [parseElems_step f _ x (93 :: rest) hv]
          exact parseElemsTail_close f x rest
  | x, y :: t, fuel, rest, hf => by
      cases fuel with
      | zero => exact absurd hf (Nat.not_lt_zero _)
      | succ f =>
          have hjoin : joinComma (stringifyParts (x :: y :: t))
              = stringify x ++ 44 :: joinComma (stringifyParts (y :: t)) := by
            rw [stringifyParts_cons x, stringifyParts_cons y]
            simp [joinComma]
          rw [hjoin] at hf ⊢
          have hxpos := stringify_len_pos x
          simp only [List.length_append, List.length_cons] at hf
          have hshape : (stringify x ++ 44 :: joinComma (stringifyParts (y :: t))) ++ 93 :: rest
              = stringify x ++ (44 :: (joinComma (stringifyParts (y :: t)) ++ 93 :: rest)) := by
            simp
          rw [hshape]
          have hv := rt_val x f (44 :: (joinComma (stringifyParts (y :: t)) ++ 93 :: rest))
            (by omega) (numStop_of_head 44 _ (by omega))
          rw [parseElems_step f _ x _ hv]
          exact parseElemsTail_comma f x _ (y :: t) rest (rt_elems y t f rest (by omega))
termination_by x xs _ _ _ => sizeOf x + sizeOf xs
decreasing_by
all_goals simp
all_goals omega
/-- Round trip for one-or-more object members up to the closing brace. -/
theorem rt_members : ∀ (kv : List Nat × Json) (ms : List (List Nat × Json))
    (fuel : Nat) (rest : List Nat),
    (joinComma (stringifyFieldParts (kv :: ms))).length + 1 < fuel →
    parseMembers fuel (joinComma (stringifyFieldParts (kv :: ms)) ++ 125 :: rest)
      = some (kv :: ms, rest)
  | ⟨k, v⟩, [], fuel, rest, hf => by
      cases fuel with
      | zero => exact absurd hf (Nat.not_lt_zero _)
      | succ f =>
          have hjoin : joinComma (stringifyFieldParts [(k, v)])
              = 34 :: escU k ++ 34 :: 58 :: stringify v := by
            rw [stringifyFieldParts_cons, stringifyFieldParts_nil]
            simp [joinComma]
          rw [hjoin] at hf ⊢
          simp only [List.length_append, List.length_cons] at hf
          have hshape : (34 :: escU k ++ 34 :: 58 :: stringify v) ++ 125 :: rest
              = 34 :: (escU k ++ 34 :: (58 :: (stringify v ++ 125 :: rest))) := by
            simp
          rw [hshape]
          have hscan : scanStr [] (escU k ++ 34 :: (58 :: (stringify v ++ 125 :: rest)))
              = some (k, 58 :: (stringify v ++ 125 :: rest)) := by
            rw [scanStr_escU]
            simp
          rw [parseMembers_step f _ k _ hscan]
          have hv := rt_val v f (125 :: rest) (by omega)
            (numStop_of_head 125 rest (by omega))
          rw [parseMemberColon_step f k _ v (125 :: rest) hv]
          exact parseMemberTail_close f k v rest
  | ⟨k, v⟩, m :: ms, fuel, rest, hf => by
      cases fuel with
      | zero => exact absurd hf (Nat.not_lt_zero _)
      | succ f =>
          have hjoin : joinComma (stringifyFieldParts ((k, v) :: m :: ms))
              = (34 :: escU k ++ 34 :: 58 :: stringify v)
                ++ 44 :: joinComma (stringifyFieldParts (m :: ms)) := by
            rw [stringifyFieldParts_cons (k, v), stringifyFieldParts_cons m]
            simp [joinComma]
          rw [hjoin] at hf ⊢
          simp only [List.length_append, List.length_cons] at hf
          have hshape : ((34 :: escU k ++ 34 :: 58 :: stringify v)
                ++ 44 :: joinComma (stringifyFieldParts (m :: ms))) ++ 125 :: rest
              = 34 :: (escU k ++ 34 :: (58 :: (stringify v
                  ++ 44 :: (joinComma (stringifyFieldParts (m :: ms)) ++ 125 :: rest)))) := by
            simp
          rw [hshape]
          have hscan : scanStr [] (escU k ++ 34 :: (58 :: (stringify v
                ++ 44 :: (joinComma (stringifyFieldParts (m :: ms)) ++ 125 :: rest))))
              = some (k, 58 :: (stringify v
                ++ 44 :: (joinComma (stringifyFieldParts (m :: ms)) ++ 125 :: rest))) := by
            rw [scanStr_escU]
            simp
          rw [parseMembers_step f _ k _ hscan]
          have hv := rt_val v f
            (44 :: (joinComma (stringifyFieldParts (m :: ms)) ++ 125 :: rest))
            (by omega) (numStop_of_head 44 _ (by omega))
          rw [parseMemberColon_step f k _ v _ hv]
          exact parseMemberTail_comma f k v _ (m :: ms) rest
            (rt_members m ms f rest (by omega))
termination_by kv ms _ _ _ => sizeOf kv + sizeOf ms
decreasing_by
all_goals simp
all_goals omega
end

/-- `JSON.stringify` is injective on the modelled values: two values with
the same rendering are equal. This is what makes keying the memo cache on
the stringified form sound. -/
theorem stringify_inj (v w : Json) (h : stringify v = stringify w) : v = w := by
  have hv := rt_val v ((stringify v).length + 1) [] (by omega) rfl
  have hw := rt_val w ((stringify w).length + 1) [] (by omega) rfl
  rw [List.append_nil] at hv hw
  rw [h] at hv
  have hvw := hv.symm.trans hw
  injection hvw with h1
  injection h1 with h2 _

/-! ### Transparency of the memoized canonicalizer -/

/-- Unfolding: canonical form of `null`. -/
theorem canonPure_null : canonPure Json.null = [110, 117, 108, 108] := by
  rw [canonPure.eq_def]

/-- Unfolding: canonical form of a boolean. -/
theorem canonPure_bool (b : Bool) :
    canonPure (Json.bool b)
      = if b then [116, 114, 117, 101] else [102, 97, 108, 115, 101] := by
  cases b <;> rw [canonPure.eq_def] <;> rfl

/-- Unfolding: canonical form of a number. -/
theorem canonPure_num (i : Int) : canonPure (Json.num i) = intDec i := by
  rw [canonPure.eq_def]

/-- Unfolding: canonical form of a string. -/
theorem canonPure_str (s : List Nat) : canonPure (Json.str s) = 34 :: escU s ++ [34] := by
  rw [canonPure.eq_def]

/-- Unfolding: canonical form of an array. -/
theorem canonPure_arr (xs : List Json) :
    canonPure (Json.arr xs) = 91 :: joinComma (canonParts xs) ++ [93] := by
  rw [canonPure.eq_def]

/-- Unfolding: canonical form of an object. -/
theorem canonPure_obj (f : List (List Nat × Json)) :
    canonPure (Json.obj f)
      = 123 :: joinComma (canonKeyParts (isortBy cuLe (f.map Prod.fst)) f) ++ [125] := by
  rw [canonPure.eq_def]

/-- Scalars canonicalize exactly to their `JSON.stringify` image. -/
theorem canonPure_scalar_eq_stringify :
    canonPure Json.null = stringify Json.null
    ∧ (∀ b, canonPure (Json.bool b) = stringify (Json.bool b))
    ∧ (∀ i, canonPure (Json.num i) = stringify (Json.num i))
    ∧ (∀ s, canonPure (Json.str s) = stringify (Json.str s)) := by
  refine ⟨by rw [canonPure_null, stringify_null], fun b => ?_, fun i => ?_, fun s => ?_⟩
  · rw [canonPure_bool, stringify_bool]
  · rw [canonPure_num, stringify_num]
  · rw [canonPure_str, stringify_str]

/-- Unfolding: canonical element strings, empty array. -/
theorem canonParts_nil : canonParts [] = [] := by
  rw [canonParts.eq_def]

/-- Unfolding: canonical element strings, cons case. -/
theorem canonParts_cons (x : Json) (t : List Json) :
    canonParts (x :: t) = canonPure x :: canonParts t := by
  rw [canonParts.eq_def]

/-- Unfolding: canonical member strings, no keys left. -/
theorem canonKeyParts_nil (f : List (List Nat × Json)) : canonKeyParts [] f = [] := by
  rw [canonKeyParts.eq_def]

/-- Unfolding: canonical member strings, one key. -/
theorem canonKeyParts_cons (k : List Nat) (t : List (List Nat)) (f : List (List Nat × Json)) :
    canonKeyParts (k :: t) f
      = (34 :: k ++ 34 :: 58 :: canonPure (lookupJ f k)) :: canonKeyParts t f := by
  rw [canonKeyParts.eq_def]

/-- Unfolding: the memoized canonicalizer on a cache hit. -/
theorem canonMemo_hit (c : Cache) (j : Json) (out : List Nat)
    (h : lookupC c (stringify j) = some out) : canonMemo c j = (out, c) := by
  rw [canonMemo.eq_def]
  simp [h]

/-- Unfolding: the memoized canonicalizer on a scalar miss. -/
theorem canonMemo_miss_scalar (c : Cache) (j : Json)
    (h : lookupC c (stringify j) = none)
    (hs : j = Json.null ∨ (∃ b, j = Json.bool b) ∨ (∃ i, j = Json.num i)
      ∨ (∃ s, j = Json.str s)) :
    canonMemo c j = (stringify j, setC (clearIfBig c) (stringify j) (stringify j)) := by
  rw [canonMemo.eq_def]
  rcases hs with rfl | ⟨b, rfl⟩ | ⟨i, rfl⟩ | ⟨s, rfl⟩ <;> simp [h] <;>
    rw [canonMemoCompute.eq_def]

/-- Unfolding: the memoized canonicalizer on an array miss. -/
theorem canonMemo_miss_arr (c : Cache) (xs : List Json)
    (h : lookupC c (stringify (Json.arr xs)) = none) :
    canonMemo c (Json.arr xs)
      = (91 :: joinComma (canonMemoParts c xs).1 ++ [93],
         setC (clearIfBig (canonMemoParts c xs).2) (stringify (Json.arr xs))
           (91 :: joinComma (canonMemoParts c xs).1 ++ [93])) := by
  rw [canonMemo.eq_def]
  simp [h]
  rw [canonMemoCompute.eq_def]
  simp

/-- Unfolding: the memoized canonicalizer on an object miss. -/
theorem canonMemo_miss_obj (c : Cache) (f : List (List Nat × Json))
    (h : lookupC c (stringify (Json.obj f)) = none) :
    canonMemo c (Json.obj f)
      = (123 :: joinComma (canonMemoKeyParts c (isortBy cuLe (f.map Prod.fst)) f).1 ++ [125],
         setC (clearIfBig (canonMemoKeyParts c (isortBy cuLe (f.map Prod.fst)) f).2)
           (stringify (Json.obj f))
           (123 :: joinComma
             (canonMemoKeyParts c (isortBy cuLe (f.map Prod.fst)) f).1 ++ [125])) := by
  rw [canonMemo.eq_def]
  simp [h]
  rw [canonMemoCompute.eq_def]
  simp

/-- Unfolding: memoized element strings, empty array. -/
theorem canonMemoParts_nil (c : Cache) : canonMemoParts c [] = ([], c) := by
  rw [canonMemoParts.eq_def]

/-- Unfolding: memoized element strings, cons case. -/
theorem canonMemoParts_cons (c : Cache) (x : Json) (t : List Json) :
    canonMemoParts c (x :: t)
      = ((canonMemo c x).1 :: (canonMemoParts (canonMemo c x).2 t).1,
         (canonMemoParts (canonMemo c x).2 t).2) := by
  rw [canonMemoParts.eq_def]

/-- Unfolding: memoized member strings, no keys left. -/
theorem canonMemoKeyParts_nil (c : Cache) (f : List (List Nat × Json)) :
    canonMemoKeyParts c [] f = ([], c) := by
  rw [canonMemoKeyParts.eq_def]

/-- Unfolding: memoized member strings, one key. -/
theorem canonMemoKeyParts_cons (c : Cache) (k : List Nat) (t : List (List Nat))
    (f : List (List Nat × Json)) :
    canonMemoKeyParts c (k :: t) f
      = ((34 :: k ++ 34 :: 58 :: (canonMemo c (lookupJ f k)).1)
           :: (canonMemoKeyParts (canonMemo c (lookupJ f k)).2 t f).1,
         (canonMemoKeyParts (canonMemo c (lookupJ f k)).2 t f).2) := by
  rw [canonMemoKeyParts.eq_def]

/-- A cache hit is a stored entry. -/
theorem lookupC_mem (c : Cache) (s out : List Nat) (h : lookupC c s = some out) :
    (s, out) ∈ c := by
  induction c with
  | nil => simp [lookupC] at h
  | cons hd t ih =>
      obtain ⟨k, v⟩ := hd
      rw [lookupC] at h
      by_cases hk : k = s
      · rw [if_pos hk] at h
        injection h with hv
        subst hk
        subst hv
        exact List.mem_cons_self _ _
      · rw [if_neg hk] at h
        exact List.mem_cons_of_mem _ (ih h)

/-- An entry after `Map.set` is the new pair or an old entry. -/
theorem mem_setC (c : Cache) (s out : List Nat) (p : List Nat × List Nat)
    (h : p ∈ setC c s out) : p = (s, out) ∨ p ∈ c := by
  induction c with
  | nil =>
      rw [setC] at h
      rcases List.mem_singleton.mp h with rfl
      exact Or.inl rfl
  | cons hd t ih =>
      obtain ⟨k, v⟩ := hd
      rw [setC] at h
      by_cases hk : k = s
      · rw [if_pos hk] at h
        rcases List.mem_cons.mp h with rfl | hmem
        · exact Or.inl rfl
        · exact Or.inr (List.mem_cons_of_mem _ hmem)
      · rw [if_neg hk] at h
        rcases List.mem_cons.mp h with rfl | hmem
        · exact Or.inr (List.mem_cons_self _ _)
        · rcases ih hmem with h1 | h2
          · exact Or.inl h1
          · exact Or.inr (List.mem_cons_of_mem _ h2)

/-- The empty cache is sound. -/
theorem cacheGood_nil : CacheGood [] := by
  intro s out hmem
  simp at hmem

/-- The size-guard clear preserves soundness. -/
theorem cacheGood_clear (c : Cache) (h : CacheGood c) : CacheGood (clearIfBig c) := by
  rw [clearIfBig]
  split
  · exact cacheGood_nil
  · exact h

/-- Storing a correct entry preserves soundness. -/
theorem cacheGood_set (c : Cache) (s out : List Nat) (h : CacheGood c)
    (hnew : ∀ v : Json, stringify v = s → canonPure v = out) :
    CacheGood (setC c s out) := by
  intro s' out' hmem v hv
  rcases mem_setC c s out _ hmem with heq | hold
  · injection heq with h1 h2
    subst h1
    subst h2
    exact hnew v hv
  · exact h s' out' hold v hv

mutual
/-- Transparency, value level: from any sound cache, the memoized
canonicalizer returns exactly the cache-free canonical string and leaves
the cache sound. -/
theorem canonMemo_ok : ∀ (j : Json) (c : Cache), CacheGood c →
    (canonMemo c j).1 = canonPure j ∧ CacheGood (canonMemo c j).2
  | j, c, hc => by
      cases hl : lookupC c (stringify j) with
      | some out =>
          rw [canonMemo_hit c j out hl]
          exact ⟨(hc _ _ (lookupC_mem c _ _ hl) j rfl).symm, hc⟩
      | none =>
          cases j with
          | null =>
              rw [canonMemo_miss_scalar c _ hl (Or.inl rfl)]
              refine ⟨canonPure_scalar_eq_stringify.1.symm, ?_⟩
              refine cacheGood_set _ _ _ (cacheGood_clear c hc) (fun v hv => ?_)
              rw [stringify_inj v _ hv]
              exact canonPure_scalar_eq_stringify.1
          | bool b =>
              rw [canonMemo_miss_scalar c _ hl (Or.inr (Or.inl ⟨b, rfl⟩))]
              refine ⟨(canonPure_scalar_eq_stringify.2.1 b).symm, ?_⟩
              refine cacheGood_set _ _ _ (cacheGood_clear c hc) (fun v hv => ?_)
              rw [stringify_inj v _ hv]
              exact canonPure_scalar_eq_stringify.2.1 b
          | num i =>
              rw [canonMemo_miss_scalar c _ hl (Or.inr (Or.inr (Or.inl ⟨i, rfl⟩)))]
              refine ⟨(canonPure_scalar_eq_stringify.2.2.1 i).symm, ?_⟩
              refine cacheGood_set _ _ _ (cacheGood_clear c hc) (fun v hv => ?_)
              rw [stringify_inj v _ hv]
              exact canonPure_scalar_eq_stringify.2.2.1 i
          | str s =>
              rw [canonMemo_miss_scalar c _ hl (Or.inr (Or.inr (Or.inr ⟨s, rfl⟩)))]
              refine ⟨(canonPure_scalar_eq_stringify.2.2.2 s).symm, ?_⟩
              refine cacheGood_set _ _ _ (cacheGood_clear c hc) (fun v hv => ?_)
              rw [stringify_inj v _ hv]
              exact canonPure_scalar_eq_stringify.2.2.2 s
          | arr xs =>
              obtain ⟨h1, h2⟩ := canonMemoParts_ok xs c hc
              rw [canonMemo_miss_arr c xs hl]
              refine ⟨by rw [canonPure_arr, ← h1], ?_⟩
              refine cacheGood_set _ _ _ (cacheGood_clear _ h2) (fun v hv => ?_)
              rw [stringify_inj v _ hv, canonPure_arr, h1]
          | obj f =>
              obtain ⟨h1, h2⟩ := canonMemoKeyParts_ok (isortBy cuLe (f.map Prod.fst)) f c hc
              rw [canonMemo_miss_obj c f hl]
              refine ⟨by rw [canonPure_obj, ← h1], ?_⟩
              refine cacheGood_set _ _ _ (cacheGood_clear _ h2) (fun v hv => ?_)
              rw [stringify_inj v _ hv, canonPure_obj, h1]
termination_by j _ _ => (sizeOf j, 1)
decreasing_by
all_goals apply Prod.Lex.left
all_goals simp
all_goals omega
/-- Transparency, array elements. -/
theorem canonMemoParts_ok : ∀ (xs : List Json) (c : Cache), CacheGood c →
    (canonMemoParts c xs).1 = canonParts xs ∧ CacheGood (canonMemoParts c xs).2
  | [], c, hc => by
      rw [canonMemoParts_nil, canonParts_nil]
      exact ⟨rfl, hc⟩
  | x :: t, c, hc => by
      obtain ⟨hx1, hx2⟩ := canonMemo_ok x c hc
      obtain ⟨ht1, ht2⟩ := canonMemoParts_ok t (canonMemo c x).2 hx2
      rw [canonMemoParts_cons, canonParts_cons]
      exact ⟨by simp [hx1, ht1], ht2⟩
termination_by xs _ _ => (sizeOf xs, 0)
decreasing_by
all_goals apply Prod.Lex.left
all_goals simp
all_goals omega
/-- Transparency, object members over the sorted key list. -/
theorem canonMemoKeyParts_ok : ∀ (ks : List (List Nat)) (f : List (List Nat × Json))
    (c : Cache), CacheGood c →
    (canonMemoKeyParts c ks f).1 = canonKeyParts ks f
      ∧ CacheGood (canonMemoKeyParts c ks f).2
  | [], f, c, hc => by
      rw [canonMemoKeyParts_nil, canonKeyParts_nil]
      exact ⟨rfl, hc⟩
  | k :: t, f, c, hc => by
      obtain ⟨hv1, hv2⟩ := canonMemo_ok (lookupJ f k) c hc
      obtain ⟨ht1, ht2⟩ := canonMemoKeyParts_ok t f (canonMemo c (lookupJ f k)).2 hv2
      rw [canonMemoKeyParts_cons, canonKeyParts_cons]
      exact ⟨by simp [hv1, ht1], ht2⟩
termination_by ks f _ _ => (sizeOf f, sizeOf ks)
decreasing_by
· have h := lookupJ_size f k
  rcases Nat.lt_or_ge (sizeOf (lookupJ f k)) (sizeOf f) with h1 | h1
  · exact Prod.Lex.left _ _ h1
  · have he : sizeOf (lookupJ f k) = sizeOf f := by omega
    rw [he]
    apply Prod.Lex.right
    have hk : 0 < sizeOf k := by cases k <;> simp <;> omega
    simp
    omega
· apply Prod.Lex.right
  simp
  try omega
end

/-- Every reachable cache state is sound. -/
theorem reachable_cacheGood (c : Cache) (h : ReachableCache c) : CacheGood c := by
  induction h with
  | init => exact cacheGood_nil
  | step c v hr ih => exact (canonMemo_ok v c ih).2

/-- C10: the memoized canonicalizer is semantically transparent: from every
cache state reachable by prior calls, `_getCanonicalJson` returns exactly
the string the cache-free recursive canonicalization returns - the
cache-hit path and the computed path never disagree. -/
theorem getCanonicalJson_memo_transparent (c : Cache) (v : Json)
    (h : ReachableCache c) : (canonMemo c v).1 = canonPure v :=
  (canonMemo_ok v c (reachable_cacheGood c h)).1

/-- C10 witness: the fresh cache is reachable, and on it the memoized and
the plain canonicalizer agree on a concrete array. -/
theorem getCanonicalJson_memo_transparent_witness :
    ReachableCache [] ∧
    (canonMemo [] (Json.arr [Json.null, Json.bool true])).1
      = canonPure (Json.arr [Json.null, Json.bool true])
    ∧ canonPure Json.null = [110, 117, 108, 108] :=
  ⟨.init, getCanonicalJson_memo_transparent [] (Json.arr [Json.null, Json.bool true]) .init,
    canonPure_null⟩

/-! ### The sort order of the canonicalizer's keys -/

/-- The code-unit order is asymmetric. -/
theorem cuLt_asymm : ∀ a b : List Nat, cuLt a b = true → cuLt b a = false := by
  intro a
  induction a with
  | nil =>
      intro b h
      cases b with
      | nil => simp [cuLt] at h
      | cons y t => rw [cuLt]
  | cons x s ih =>
      intro b h
      cases b with
      | nil => simp [cuLt] at h
      | cons y t =>
          rw [cuLt] at h ⊢
          by_cases h1 : x < y
          · rw [if_neg (by omega), if_pos h1]
          · rw [if_neg h1] at h
            by_cases h2 : y < x
            · rw [if_pos h2] at h
              simp at h
            · rw [if_neg h2] at h
              rw [if_neg h2, if_neg h1]
              exact ih t h

/-- The sort comparator is total. -/
theorem cuLe_total (a b : List Nat) (h : cuLe a b = false) : cuLe b a = true := by
  rw [cuLe] at h ⊢
  simp only [Bool.not_eq_false'] at h
  rw [cuLt_asymm b a h]
  rfl

/-- Totality lifted to fields. -/
theorem fieldLe_total (a b : List Nat × Json) (h : fieldLe a b = false) :
    fieldLe b a = true :=
  cuLe_total a.1 b.1 h

/-- Unfolding: order check on a two-or-more list. -/
theorem pairwiseLeB_cons2 {α : Type} (le : α → α → Bool) (x y : α) (t : List α) :
    pairwiseLeB le (x :: y :: t) = (le x y && pairwiseLeB le (y :: t)) := by
  rw [pairwiseLeB]

/-- A sorted list stays sorted after prefixing a unit below its head. -/
theorem pairwiseLeB_cons_of {α : Type} (le : α → α → Bool) (y : α) (M : List α)
    (hM : pairwiseLeB le M = true) (hhead : ∀ z t, M = z :: t → le y z = true) :
    pairwiseLeB le (y :: M) = true := by
  cases M with
  | nil => rfl
  | cons z t =>
      rw [pairwiseLeB_cons2, hhead z t rfl, hM]
      rfl

/-- Ordered insert into a sorted list keeps it sorted, given totality. -/
theorem insertLe_pairwise {α : Type} (le : α → α → Bool)
    (htot : ∀ a b, le a b = false → le b a = true) (x : α) :
    ∀ l : List α, pairwiseLeB le l = true → pairwiseLeB le (insertLe le x l) = true := by
  intro l
  induction l with
  | nil => intro _; rfl
  | cons y t ih =>
      intro hl
      rw [insertLe]
      by_cases hxy : le x y = true
      · rw [if_pos hxy, pairwiseLeB_cons2, hxy, hl]
        rfl
      · rw [if_neg hxy]
        have hyx : le y x = true := htot x y (by
          cases hv : le x y
          · rfl
          · exact absurd hv hxy)
        have htail : pairwiseLeB le t = true := by
          cases t with
          | nil => rfl
          | cons z t' =>
              rw [pairwiseLeB_cons2] at hl
              exact (Bool.and_eq_true_iff.mp hl).2
        refine pairwiseLeB_cons_of le y _ (ih htail) ?_
        intro z t' hz
        cases t with
        | nil =>
            rw [insertLe] at hz
            injection hz with hz1 _
            subst hz1
            exact hyx
        | cons w t'' =>
            rw [insertLe] at hz
            by_cases hxw : le x w = true
            · rw [if_pos hxw] at hz
              injection hz with hz1 _
              subst hz1
              exact hyx
            · rw [if_neg hxw] at hz
              injection hz with hz1 _
              subst hz1
              rw [pairwiseLeB_cons2] at hl
              exact (Bool.and_eq_true_iff.mp hl).1

/-- Insertion sort sorts, given totality. -/
theorem isortBy_pairwise {α : Type} (le : α → α → Bool)
    (htot : ∀ a b, le a b = false → le b a = true) :
    ∀ l : List α, pairwiseLeB le (isortBy le l) = true := by
  intro l
  induction l with
  | nil => rfl
  | cons x t ih =>
      rw [isortBy]
      exact insertLe_pairwise le htot x _ ih

/-- Insertion sort fixes a sorted list. -/
theorem isortBy_of_pairwise {α : Type} (le : α → α → Bool) :
    ∀ l : List α, pairwiseLeB le l = true → isortBy le l = l := by
  intro l
  induction l with
  | nil => intro _; rfl
  | cons x t ih =>
      intro hl
      have htail : pairwiseLeB le t = true := by
        cases t with
        | nil => rfl
        | cons z t' =>
            rw [pairwiseLeB_cons2] at hl
            exact (Bool.and_eq_true_iff.mp hl).2
      rw [isortBy, ih htail]
      cases t with
      | nil => rfl
      | cons y t' =>
          rw [pairwiseLeB_cons2] at hl
          rw [insertLe, if_pos (Bool.and_eq_true_iff.mp hl).1]

/-- Sorting twice is sorting once, given totality. -/
theorem isortBy_idem {α : Type} (le : α → α → Bool)
    (htot : ∀ a b, le a b = false → le b a = true) (l : List α) :
    isortBy le (isortBy le l) = isortBy le l :=
  isortBy_of_pairwise le _ (isortBy_pairwise le htot l)

/-- Membership through ordered insert. -/
theorem insertLe_mem {α : Type} (le : α → α → Bool) (x : α) :
    ∀ (l : List α) (p : α), p ∈ insertLe le x l → p = x ∨ p ∈ l := by
  intro l
  induction l with
  | nil =>
      intro p hp
      rw [insertLe] at hp
      exact Or.inl (List.mem_singleton.mp hp)
  | cons y t ih =>
      intro p hp
      rw [insertLe] at hp
      by_cases hxy : le x y = true
      · rw [if_pos hxy] at hp
        rcases List.mem_cons.mp hp with rfl | hmem
        · exact Or.inl rfl
        · exact Or.inr hmem
      · rw [if_neg hxy] at hp
        rcases List.mem_cons.mp hp with rfl | hmem
        · exact Or.inr (List.mem_cons_self _ _)
        · rcases ih p hmem with h1 | h2
          · exact Or.inl h1
          · exact Or.inr (List.mem_cons_of_mem _ h2)

/-- Membership through insertion sort. -/
theorem isortBy_mem {α : Type} (le : α → α → Bool) :
    ∀ (l : List α) (p : α), p ∈ isortBy le l → p ∈ l := by
  intro l
  induction l with
  | nil => intro p hp; simpa [isortBy] using hp
  | cons x t ih =>
      intro p hp
      rw [isortBy] at hp
      rcases insertLe_mem le x _ p hp with rfl | hmem
      · exact List.mem_cons_self _ _
      · exact List.mem_cons_of_mem _ (ih p hmem)

/-- Ordered insert of a field mirrors ordered insert of its key. -/
theorem insertLe_map_fst (kv : List Nat × Json) :
    ∀ l : List (List Nat × Json),
      (insertLe fieldLe kv l).map Prod.fst = insertLe cuLe kv.1 (l.map Prod.fst) := by
  intro l
  induction l with
  | nil => rfl
  | cons y t ih =>
      rw [insertLe]
      by_cases h : fieldLe kv y = true
      · have h' : cuLe kv.1 y.1 = true := h
        rw [if_pos h, List.map_cons, List.map_cons, insertLe, if_pos h']
      · have h' : ¬cuLe kv.1 y.1 = true := h
        rw [if_neg h, List.map_cons, List.map_cons, insertLe, if_neg h', ih]

/-- Sorting fields by key projects to sorting the key list: the source's
`Object.keys(data).sort()` and a by-key field sort agree on key order. -/
theorem isortBy_map_fst :
    ∀ f : List (List Nat × Json),
      (isortBy fieldLe f).map Prod.fst = isortBy cuLe (f.map Prod.fst) := by
  intro f
  induction f with
  | nil => rfl
  | cons kv t ih => rw [isortBy, List.map_cons, isortBy, ← ih, insertLe_map_fst]

/-- Ordered insert commutes with a key-preserving transformation of the
values. -/
theorem insertLe_map_keyfix (g : List Nat × Json → List Nat × Json)
    (hg : ∀ kv, (g kv).1 = kv.1) (x : List Nat × Json) :
    ∀ l : List (List Nat × Json),
      insertLe fieldLe (g x) (l.map g) = (insertLe fieldLe x l).map g := by
  intro l
  induction l with
  | nil => rfl
  | cons y t ih =>
      have hle : fieldLe (g x) (g y) = fieldLe x y := by
        rw [fieldLe, fieldLe, hg, hg]
      rw [List.map_cons, insertLe, insertLe, hle]
      by_cases h : fieldLe x y = true
      · rw [if_pos h, if_pos h, List.map_cons, List.map_cons]
      · rw [if_neg h, if_neg h, List.map_cons, ih]

/-- Sorting by key commutes with a key-preserving transformation. -/
theorem isortBy_map_keyfix (g : List Nat × Json → List Nat × Json)
    (hg : ∀ kv, (g kv).1 = kv.1) :
    ∀ l : List (List Nat × Json),
      isortBy fieldLe (l.map g) = (isortBy fieldLe l).map g := by
  intro l
  induction l with
  | nil => rfl
  | cons kv t ih => rw [List.map_cons, isortBy, isortBy, ih, insertLe_map_keyfix g hg]

/-- `memKey` is membership. -/
theorem memKey_of_mem (x : List Nat) : ∀ l : List (List Nat), x ∈ l → memKey x l = true := by
  intro l
  induction l with
  | nil => intro h; simp at h
  | cons y t ih =>
      intro h
      rcases List.mem_cons.mp h with rfl | hmem
      · rw [memKey]
        simp
      · rw [memKey, ih hmem]
        simp

/-- With pairwise-distinct keys, looking a field's key up returns that
field's value. -/
theorem lookupJ_of_distinct :
    ∀ (f : List (List Nat × Json)) (kv : List Nat × Json),
      keysDistinct (f.map Prod.fst) = true → kv ∈ f → lookupJ f kv.1 = kv.2 := by
  intro f
  induction f with
  | nil => intro kv _ h; simp at h
  | cons hd t ih =>
      intro kv hdist hmem
      obtain ⟨k, v⟩ := hd
      rw [List.map_cons, keysDistinct] at hdist
      have hd1 := (Bool.and_eq_true_iff.mp hdist).1
      have hd2 := (Bool.and_eq_true_iff.mp hdist).2
      rcases List.mem_cons.mp hmem with rfl | hmem'
      · rw [lookupJ, if_pos rfl]
      · rw [lookupJ]
        have hne : ¬k = kv.1 := by
          intro hk
          have : memKey kv.1 (t.map Prod.fst) = true :=
            memKey_of_mem _ _ (List.mem_map_of_mem Prod.fst hmem')
          rw [← hk] at this
          rw [this] at hd1
          simp at hd1
        rw [if_neg hne]
        exact ih kv hd2 hmem'

/-- Unfolding: distinct-keys check on the value constructors. -/
theorem nodupKeys_arr (xs : List Json) : nodupKeys (Json.arr xs) = nodupKeysElems xs := by
  rw [nodupKeys.eq_def]

/-- Unfolding: distinct-keys check on an object. -/
theorem nodupKeys_obj (f : List (List Nat × Json)) :
    nodupKeys (Json.obj f) = (keysDistinct (f.map Prod.fst) && nodupKeysFields f) := by
  rw [nodupKeys.eq_def]

/-- Array elements of a distinct-keys array have distinct keys. -/
theorem nodupKeysElems_mem : ∀ (xs : List Json) (x : Json),
    nodupKeysElems xs = true → x ∈ xs → nodupKeys x = true := by
  intro xs
  induction xs with
  | nil => intro x _ h; simp at h
  | cons y t ih =>
      intro x hall hmem
      rw [nodupKeysElems.eq_def] at hall
      rcases List.mem_cons.mp hmem with rfl | hmem'
      · exact (Bool.and_eq_true_iff.mp hall).1
      · exact ih x (Bool.and_eq_true_iff.mp hall).2 hmem'

/-- Field values of a distinct-keys object have distinct keys. -/
theorem nodupKeysFields_mem : ∀ (f : List (List Nat × Json)) (kv : List Nat × Json),
    nodupKeysFields f = true → kv ∈ f → nodupKeys kv.2 = true := by
  intro f
  induction f with
  | nil => intro kv _ h; simp at h
  | cons y t ih =>
      intro kv hall hmem
      rw [nodupKeysFields.eq_def] at hall
      rcases List.mem_cons.mp hmem with rfl | hmem'
      · exact (Bool.and_eq_true_iff.mp hall).1
      · exact ih kv (Bool.and_eq_true_iff.mp hall).2 hmem'

/-- Unfolding: spec-side canonical form on scalars matches the shared
scalar serialization. -/
theorem canonSpecBy_scalar (le : List Nat × Json → List Nat × Json → Bool) :
    canonSpecBy le Json.null = [110, 117, 108, 108]
    ∧ (∀ b, canonSpecBy le (Json.bool b)
        = if b then [116, 114, 117, 101] else [102, 97, 108, 115, 101])
    ∧ (∀ i, canonSpecBy le (Json.num i) = intDec i)
    ∧ (∀ s, canonSpecBy le (Json.str s) = 34 :: escU s ++ [34]) := by
  refine ⟨by rw [canonSpecBy.eq_def], fun b => ?_, fun i => by rw [canonSpecBy.eq_def],
    fun s => by rw [canonSpecBy.eq_def]⟩
  cases b <;> rw [canonSpecBy.eq_def] <;> rfl

/-- Unfolding: spec-side canonical form of an array. -/
theorem canonSpecBy_arr (le : List Nat × Json → List Nat × Json → Bool) (xs : List Json) :
    canonSpecBy le (Json.arr xs) = 91 :: joinComma (specParts le xs) ++ [93] := by
  rw [canonSpecBy.eq_def]

/-- Unfolding: spec-side canonical form of an object sorts its fields. -/
theorem canonSpecBy_obj (le : List Nat × Json → List Nat × Json → Bool)
    (f : List (List Nat × Json)) :
    canonSpecBy le (Json.obj f)
      = 123 :: joinComma (specFieldParts le (isortBy le f)) ++ [125] := by
  rw [canonSpecBy.eq_def]

/-- Unfolding: spec-side element strings. -/
theorem specParts_nil (le : List Nat × Json → List Nat × Json → Bool) :
    specParts le [] = [] := by
  rw [specParts.eq_def]

/-- Unfolding: spec-side element strings, cons case. -/
theorem specParts_cons (le : List Nat × Json → List Nat × Json → Bool) (x : Json)
    (t : List Json) : specParts le (x :: t) = canonSpecBy le x :: specParts le t := by
  rw [specParts.eq_def]

/-- Unfolding: spec-side member strings. -/
theorem specFieldParts_nil (le : List Nat × Json → List Nat × Json → Bool) :
    specFieldParts le [] = [] := by
  rw [specFieldParts.eq_def]

/-- Unfolding: spec-side member strings, cons case. -/
theorem specFieldParts_cons (le : List Nat × Json → List Nat × Json → Bool)
    (kv : List Nat × Json) (t : List (List Nat × Json)) :
    specFieldParts le (kv :: t)
      = (34 :: kv.1 ++ 34 :: 58 :: canonSpecBy le kv.2) :: specFieldParts le t := by
  rw [specFieldParts.eq_def]

/-- Unfolding: the normal form on each constructor. -/
theorem normalJson_eq :
    normalJson Json.null = Json.null
    ∧ (∀ b, normalJson (Json.bool b) = Json.bool b)
    ∧ (∀ i, normalJson (Json.num i) = Json.num i)
    ∧ (∀ s, normalJson (Json.str s) = Json.str s)
    ∧ (∀ xs, normalJson (Json.arr xs) = Json.arr (normalElems xs))
    ∧ (∀ f, normalJson (Json.obj f) = Json.obj (isortBy fieldLe (normalFields f))) := by
  exact ⟨by rw [normalJson.eq_def], fun b => by rw [normalJson.eq_def],
    fun i => by rw [normalJson.eq_def], fun s => by rw [normalJson.eq_def],
    fun xs => by rw [normalJson.eq_def], fun f => by rw [normalJson.eq_def]⟩

/-- Unfolding: element normal forms. -/
theorem normalElems_eq : normalElems [] = []
    ∧ ∀ x t, normalElems (x :: t) = normalJson x :: normalElems t :=
  ⟨by rw [normalElems.eq_def], fun x t => by rw [normalElems.eq_def]⟩

/-- Unfolding: field normal forms. -/
theorem normalFields_eq : normalFields [] = []
    ∧ ∀ (kv : List Nat × Json) t,
        normalFields (kv :: t) = (kv.1, normalJson kv.2) :: normalFields t :=
  ⟨by rw [normalFields.eq_def], fun kv t => by rw [normalFields.eq_def]⟩

/-- The field normal forms are a key-preserving map. -/
theorem normalFields_as_map : ∀ l : List (List Nat × Json),
    normalFields l = l.map (fun kv => (kv.1, normalJson kv.2)) := by
  intro l
  induction l with
  | nil => exact normalFields_eq.1
  | cons kv t ih => rw [normalFields_eq.2, ih, List.map_cons]

mutual
/-- On values with pairwise-distinct keys (all JavaScript objects), the
source canonicalizer - sorted key list plus property lookup - produces
exactly the specification's sort-the-fields-then-serialize canonical
form, with keys in the comparator order of `Array.prototype.sort`. -/
theorem canonPure_eq_spec : ∀ j : Json, nodupKeys j = true →
    canonPure j = canonSpecBy fieldLe j
  | .null, _ => by rw [canonPure_null, (canonSpecBy_scalar fieldLe).1]
  | .bool b, _ => by rw [canonPure_bool, (canonSpecBy_scalar fieldLe).2.1 b]
  | .num i, _ => by rw [canonPure_num, (canonSpecBy_scalar fieldLe).2.2.1 i]
  | .str s, _ => by rw [canonPure_str, (canonSpecBy_scalar fieldLe).2.2.2 s]
  | .arr xs, h => by
      rw [canonPure_arr, canonSpecBy_arr,
        canonParts_eq_spec xs (by rw [← nodupKeys_arr]; exact h)]
  | .obj f, h => by
      rw [canonPure_obj, canonSpecBy_obj]
      rw [nodupKeys_obj] at h
      obtain ⟨hdist, hfields⟩ := Bool.and_eq_true_iff.mp h
      rw [show isortBy cuLe (f.map Prod.fst) = (isortBy fieldLe f).map Prod.fst from
        (isortBy_map_fst f).symm]
      rw [canonFields_eq_spec (isortBy fieldLe f) f
        (fun kv hkv => lookupJ_of_distinct f kv hdist (isortBy_mem _ f kv hkv))
        (fun kv hkv => nodupKeysFields_mem f kv hfields (isortBy_mem _ f kv hkv))]
termination_by j _ => sizeOf j
decreasing_by
all_goals simp [isortBy_sizeOf]
all_goals try omega
/-- Array-element version of `canonPure_eq_spec`. -/
theorem canonParts_eq_spec : ∀ xs : List Json, nodupKeysElems xs = true →
    canonParts xs = specParts fieldLe xs
  | [], _ => by rw [canonParts_nil, specParts_nil]
  | x :: t, h => by
      have h' : nodupKeys x = true ∧ nodupKeysElems t = true := by
        rw [nodupKeysElems.eq_def] at h
        exact Bool.and_eq_true_iff.mp h
      rw [canonParts_cons, specParts_cons, canonPure_eq_spec x h'.1,
        canonParts_eq_spec t h'.2]
termination_by xs _ => sizeOf xs
decreasing_by
all_goals simp
all_goals try omega
/-- Member version: over any field list whose keys look up to their own
values, the lookup-based member strings equal the field-based ones. -/
theorem canonFields_eq_spec : ∀ (l f : List (List Nat × Json)),
    (∀ kv ∈ l, lookupJ f kv.1 = kv.2) → (∀ kv ∈ l, nodupKeys kv.2 = true) →
    canonKeyParts (l.map Prod.fst) f = specFieldParts fieldLe l
  | [], f, _, _ => by rw [List.map_nil, canonKeyParts_nil, specFieldParts_nil]
  | kv :: t, f, hlook, hnodup => by
      rw [List.map_cons, canonKeyParts_cons, specFieldParts_cons,
        hlook kv (List.mem_cons_self _ _),
        canonPure_eq_spec kv.2 (hnodup kv (List.mem_cons_self _ _)),
        canonFields_eq_spec t f (fun p hp => hlook p (List.mem_cons_of_mem _ hp))
          (fun p hp => hnodup p (List.mem_cons_of_mem _ hp))]
termination_by l _ _ _ => sizeOf l
decreasing_by
all_goals first
  | (obtain ⟨a, b⟩ := kv
     simp
     try omega)
  | (simp
     try omega)
end

mutual
/-- The spec-side canonical form only depends on the key-order normal
form of the value. -/
theorem canonSpec_normal : ∀ j : Json,
    canonSpecBy fieldLe j = canonSpecBy fieldLe (normalJson j)
  | .null => by rw [normalJson_eq.1]
  | .bool b => by rw [normalJson_eq.2.1 b]
  | .num i => by rw [normalJson_eq.2.2.1 i]
  | .str s => by rw [normalJson_eq.2.2.2.1 s]
  | .arr xs => by
      rw [normalJson_eq.2.2.2.2.1 xs, canonSpecBy_arr, canonSpecBy_arr,
        specParts_normal xs]
  | .obj f => by
      rw [normalJson_eq.2.2.2.2.2 f, canonSpecBy_obj, canonSpecBy_obj,
        isortBy_idem fieldLe fieldLe_total (normalFields f)]
      have hcomm : isortBy fieldLe (normalFields f) = normalFields (isortBy fieldLe f) := by
        rw [normalFields_as_map, normalFields_as_map]
        exact isortBy_map_keyfix (fun kv => (kv.1, normalJson kv.2)) (fun kv => rfl) f
      rw [hcomm, ← specFields_normal (isortBy fieldLe f)]
termination_by j => sizeOf j
decreasing_by
all_goals simp [isortBy_sizeOf]
all_goals try omega
/-- Array-element version of `canonSpec_normal`. -/
theorem specParts_normal : ∀ xs : List Json,
    specParts fieldLe xs = specParts fieldLe (normalElems xs)
  | [] => by rw [normalElems_eq.1]
  | x :: t => by
      rw [normalElems_eq.2 x t, specParts_cons, specParts_cons, ← canonSpec_normal x,
        ← specParts_normal t]
termination_by xs => sizeOf xs
decreasing_by
all_goals simp
all_goals try omega
/-- Member version of `canonSpec_normal`. -/
theorem specFields_normal : ∀ l : List (List Nat × Json),
    specFieldParts fieldLe l = specFieldParts fieldLe (normalFields l)
  | [] => by rw [normalFields_eq.1]
  | kv :: t => by
      rw [normalFields_eq.2 kv t, specFieldParts_cons, specFieldParts_cons,
        ← specFields_normal t]
      simp only []
      rw [← canonSpec_normal kv.2]
termination_by l => sizeOf l
decreasing_by
all_goals first
  | (obtain ⟨a, b⟩ := kv
     simp
     try omega)
  | (simp
     try omega)
end

/-- C2: canonicalization determinism under the memo cache: for values that
are deep-equal up to object key insertion order (equal key-order normal
forms) and have the pairwise-distinct keys every JavaScript object has,
`_getCanonicalJson` returns the identical string, in every reachable state
of the memoization cache. -/
theorem canonicalize_order_independent (c : Cache) (A B : Json)
    (hc : ReachableCache c) (hA : nodupKeys A = true) (hB : nodupKeys B = true)
    (hAB : normalJson A = normalJson B) :
    (canonMemo c A).1 = (canonMemo c B).1 := by
  have good := reachable_cacheGood c hc
  rw [(canonMemo_ok A c good).1, (canonMemo_ok B c good).1,
    canonPure_eq_spec A hA, canonPure_eq_spec B hB, canonSpec_normal A,
    canonSpec_normal B, hAB]

/-- C2 witness: the same two-field object in its two insertion orders,
canonicalized from the fresh cache. -/
theorem canonicalize_order_independent_witness :
    nodupKeys (Json.obj [([98], Json.bool true), ([97], Json.null)]) = true
    ∧ nodupKeys (Json.obj [([97], Json.null), ([98], Json.bool true)]) = true
    ∧ normalJson (Json.obj [([98], Json.bool true), ([97], Json.null)])
        = normalJson (Json.obj [([97], Json.null), ([98], Json.bool true)])
    ∧ (canonMemo [] (Json.obj [([98], Json.bool true), ([97], Json.null)])).1
        = (canonMemo [] (Json.obj [([97], Json.null), ([98], Json.bool true)])).1 :=
  ⟨by decide, by decide, by rfl,
    canonicalize_order_independent [] _ _ .init (by decide) (by decide) (by rfl)⟩

/-- C3 counterexample: the canonical string does not sort keys in
byte-wise lexicographic order. The object with keys `！` (fullwidth
exclamation, UTF-8 `EF BC 81`) and `𐀀` (U+10000, UTF-8
`F0 90 80 80`): `Array.prototype.sort` compares UTF-16 code units and puts
the surrogate-pair key first, while byte-wise UTF-8 order puts the
fullwidth-exclamation key first. -/
theorem canonical_sort_not_bytewise :
    canonPure (Json.obj [([0xFF01], Json.null), ([0xD800, 0xDC00], Json.bool true)])
      ≠ canonSpecBy byteFieldLe
          (Json.obj [([0xFF01], Json.null), ([0xD800, 0xDC00], Json.bool true)]) := by
  rw [canonPure_obj, canonSpecBy_obj]
  simp only [List.map_cons, List.map_nil]
  rw [show isortBy cuLe [[0xFF01], [0xD800, 0xDC00]] = [[0xD800, 0xDC00], [0xFF01]] from by
    simp [isortBy, insertLe, cuLe, cuLt]]
  rw [show isortBy byteFieldLe [([0xFF01], Json.null), ([0xD800, 0xDC00], Json.bool true)]
      = [([0xFF01], Json.null), ([0xD800, 0xDC00], Json.bool true)] from by
    simp [isortBy, insertLe, byteFieldLe, utf8Key, cpOfUnits, utf8Enc, cuLe, cuLt,
      isHighSur, isLowSur]]
  rw [canonKeyParts_cons, canonKeyParts_cons, canonKeyParts_nil,
    specFieldParts_cons, specFieldParts_cons, specFieldParts_nil]
  simp [lookupJ, joinComma, canonPure_null, canonPure_bool, (canonSpecBy_scalar _).1,
    (canonSpecBy_scalar byteFieldLe).2.1]

/-- C3 amended: the canonical string serializes primitives by standard
JSON scalar rules, arrays element-wise preserving order, and objects with
their fields sorted by the UTF-16 code-unit lexicographic order on the key
strings - the order of JavaScript's default string sort, which coincides
with byte-wise UTF-8 order for keys without surrogate pairs - emitted as
`"key":value` pairs joined with no whitespace. -/
theorem getCanonicalJson_matches_spec_shape (v : Json) (h : nodupKeys v = true) :
    canonPure v = canonSpecBy fieldLe v :=
  canonPure_eq_spec v h

/-- C3 witness: a concrete two-field object with distinct keys. -/
theorem getCanonicalJson_matches_spec_shape_witness :
    nodupKeys (Json.obj [([98], Json.null), ([97], Json.bool true)]) = true
    ∧ canonPure (Json.obj [([98], Json.null), ([97], Json.bool true)])
        = canonSpecBy fieldLe (Json.obj [([98], Json.null), ([97], Json.bool true)]) :=
  ⟨by decide, getCanonicalJson_matches_spec_shape _ (by decide)⟩
